import Mathlib

set_option linter.unusedVariables false

attribute [local semireducible] Rat.add Rat.sub Rat.mul Rat.inv

/-! Verification development for the spectre variable-order Adams-Bashforth
time-stepping core.  The repository sources provide the unit tests of the
core (src/tests/Unit/Time/TimeSteppers/Test_AdamsBashforth.cpp); the stepper,
history and time-point classes exercised by those tests are not among the
provided sources, so they are modelled here from the natural-language
specification, with exact rational arithmetic standing in for the floating
point / exact-fraction arithmetic of the original ("to within epsilon"
statements become exact equalities over ℚ). -/

/-- Evolution-order strict comparison: forward evolutions use the usual order
on rational times, backward evolutions the reversed order. -/
def evolLT (fwd : Bool) (a b : ℚ) : Bool :=
  if fwd then decide (a < b) else decide (b < a)

/-- Evolution-order non-strict comparison. -/
def evolLE (fwd : Bool) (a b : ℚ) : Bool :=
  if fwd then decide (a ≤ b) else decide (b ≤ a)

/-- Last `n` elements of a list (the most recent history entries). -/
def takeLast (n : Nat) (l : List α) : List α := l.drop (l.length - n)

/-- Dense polynomials as little-endian rational coefficient lists, evaluated
by Horner's rule. -/
def polyEval (p : List ℚ) (x : ℚ) : ℚ := p.foldr (fun c acc => c + x * acc) 0

/-- Coefficient-wise sum of two coefficient lists. -/
def polyAdd : List ℚ → List ℚ → List ℚ
  | [], q => q
  | p, [] => p
  | a :: p, b :: q => (a + b) :: polyAdd p q

/-- Scalar multiple of a coefficient list. -/
def polyScale (c : ℚ) (p : List ℚ) : List ℚ := p.map (fun a => c * a)

/-- Product of two coefficient lists. -/
def polyMul : List ℚ → List ℚ → List ℚ
  | [], _ => []
  | a :: p, q => polyAdd (polyScale a q) (0 :: polyMul p q)

/-- Antiderivative helper: the coefficient whose new exponent is `n` is
divided by `n`. -/
def polyAntiderivAux (n : ℕ) : List ℚ → List ℚ
  | [] => []
  | c :: p => (c / n) :: polyAntiderivAux (n + 1) p

/-- Formal antiderivative with zero constant term. -/
def polyAntideriv (p : List ℚ) : List ℚ := 0 :: polyAntiderivAux 1 p

/-- Exact definite integral of a coefficient-list polynomial over [a, b]. -/
def polyIntegrate (p : List ℚ) (a b : ℚ) : ℚ :=
  polyEval (polyAntideriv p) b - polyEval (polyAntideriv p) a

/-- Linear factors (x - tj)/(ti - tj) of a Lagrange basis polynomial, one per
sample time tj in the given list. -/
def lagrangeFactors (ti : ℚ) : List ℚ → List (List ℚ)
  | [] => []
  | tj :: rest => [(-tj) / (ti - tj), 1 / (ti - tj)] :: lagrangeFactors ti rest

/-- Modelled from the spec: the coefficient engine (not among the provided
sources) builds Lagrange basis polynomials through the ordered sample times,
generalizing fixed-step Adams-Bashforth to arbitrary non-uniform spacing.
`lagrangeBasis ts i` is the basis polynomial that is 1 at `ts[i]` and 0 at the
other sample times. -/
def lagrangeBasis (ts : List ℚ) (i : ℕ) : List ℚ :=
  (lagrangeFactors (ts.getD i 0) (ts.eraseIdx i)).foldr polyMul [1]

/-- All Lagrange basis polynomials through the sample times `ts`. -/
def lagrangeBases (ts : List ℚ) : List (List ℚ) :=
  (List.range ts.length).map (fun i => lagrangeBasis ts i)

/-- Modelled from the spec: the stepper's accumulation
`Σ weight_i * derivative_i`, where `weight_i` is the integral-form
coefficient of sample `i` — the exact integral of its Lagrange basis
polynomial over the target interval [a, b]. -/
def stepSum (a b : ℚ) : List (List ℚ) → List ℚ → ℚ
  | p :: ps, d :: ds => polyIntegrate p a b * d + stepSum a b ps ds
  | _, _ => 0

/-- Modelled from the spec: a step identifier — direction-of-time flag,
slab/substep indices and the (exact rational) step time. -/
structure TimeStepId where
  time_runs_forward : Bool
  slab_number : Int
  substep : Nat
  step_time : ℚ
deriving DecidableEq

/-- Modelled from the spec: the StepId total order — direction-respecting
time order first, then sub-iteration count at equal time. -/
def TimeStepId.lt (a b : TimeStepId) : Bool :=
  evolLT a.time_runs_forward a.step_time b.step_time ||
    (decide (a.step_time = b.step_time) && decide (a.substep < b.substep))

/-- Modelled from the spec: one (StepId, value, derivative) history triple. -/
structure HistoryEntry where
  time_step_id : TimeStepId
  value : ℚ
  derivative : ℚ
deriving DecidableEq

/-- Modelled from the spec: the per-variable History buffer, bounded to at
most `order` retained entries. -/
structure History where
  order : ℕ
  entries : List HistoryEntry
deriving DecidableEq

/-- Modelled from the spec: append the newest entry, silently discarding the
oldest once at capacity. -/
def History.insert (h : History) (id : TimeStepId) (v d : ℚ) : History :=
  { h with entries := takeLast h.order (h.entries ++ [⟨id, v, d⟩]) }

/-- Modelled from the spec: seed the history with an entry older than all
current ones, before normal integration begins. -/
def History.insert_initial (h : History) (id : TimeStepId) (v d : ℚ) : History :=
  { h with entries := ⟨id, v, d⟩ :: h.entries }

/-- Time of the most recent history entry (0 for an empty history, which the
spec classes as a caller contract violation). -/
def History.lastTime (h : History) : ℚ :=
  match h.entries.getLast? with
  | none => 0
  | some e => e.time_step_id.step_time

/-- Modelled from the spec: one boundary-history entry — StepId, the order
recorded at insertion, and the stored derivative/flux value. -/
structure BoundaryEntry where
  time_step_id : TimeStepId
  integration_order : ℕ
  value : ℚ
deriving DecidableEq

/-- Modelled from the spec: the BoundaryHistory pair of independent local and
remote sequences. -/
structure BoundaryHistory where
  localSide : List BoundaryEntry
  remoteSide : List BoundaryEntry
deriving DecidableEq

/-- Append an entry on the local side. -/
def BoundaryHistory.local_insert (bh : BoundaryHistory) (id : TimeStepId)
    (k : ℕ) (v : ℚ) : BoundaryHistory :=
  { bh with localSide := bh.localSide ++ [⟨id, k, v⟩] }

/-- Prepend an initial (older) entry on the local side. -/
def BoundaryHistory.local_insert_initial (bh : BoundaryHistory)
    (id : TimeStepId) (k : ℕ) (v : ℚ) : BoundaryHistory :=
  { bh with localSide := ⟨id, k, v⟩ :: bh.localSide }

/-- Append an entry on the remote side. -/
def BoundaryHistory.remote_insert (bh : BoundaryHistory) (id : TimeStepId)
    (k : ℕ) (v : ℚ) : BoundaryHistory :=
  { bh with remoteSide := bh.remoteSide ++ [⟨id, k, v⟩] }

/-- Prepend an initial (older) entry on the remote side. -/
def BoundaryHistory.remote_insert_initial (bh : BoundaryHistory)
    (id : TimeStepId) (k : ℕ) (v : ℚ) : BoundaryHistory :=
  { bh with remoteSide := ⟨id, k, v⟩ :: bh.remoteSide }

/-- Modelled from the spec: the Stepper is constructed from a single integer
order and carries no other state. -/
structure AdamsBashforth where
  order : ℕ
deriving DecidableEq

/-- Convergence order of the method: the construction order. -/
def AdamsBashforth.method_order (s : AdamsBashforth) : ℕ := s.order

/-- Modelled from the spec: `error_estimate_order` for a `k`-point method is
`k - 1`. -/
def AdamsBashforth.error_estimate_order (s : AdamsBashforth) : ℕ :=
  s.order - 1

/-- Modelled from the spec: checkpoint serialization round-trips the order
only, there being no other state. -/
def AdamsBashforth.serialize (s : AdamsBashforth) : ℕ := s.order

/-- Deserialize a stepper from its serialized order. -/
def AdamsBashforth.deserialize (k : ℕ) : AdamsBashforth := ⟨k⟩

/-- The engine underlying the volume update: accumulate the integral-form
weighted sum of the most recent `order` stored derivatives over the explicit
target interval [a, b]. -/
def AdamsBashforth.applyStep (s : AdamsBashforth) (y : ℚ) (h : History)
    (a b : ℚ) : ℚ :=
  let ents := takeLast s.order h.entries
  y + stepSum a b (lagrangeBases (ents.map (fun e => e.time_step_id.step_time)))
      (ents.map (fun e => e.derivative))

/-- Modelled from the spec: `update_u(value, history, dt)` computes
integral-form coefficients over the most recent `order` sample times with
target interval [t_now, t_now + dt] and accumulates
`value += Σ w_i * derivative_i`. -/
def AdamsBashforth.update_u (s : AdamsBashforth) (y : ℚ) (h : History)
    (dt : ℚ) : ℚ :=
  s.applyStep y h h.lastTime (h.lastTime + dt)

/-- Modelled from the spec: `dense_output` is the same operation as
`update_u` with point evaluation at `time`; it returns the value together
with the (untouched) history to make the frame condition expressible. -/
def AdamsBashforth.dense_output (s : AdamsBashforth) (y : ℚ) (h : History)
    (time : ℚ) : ℚ × History :=
  (s.applyStep y h h.lastTime time, h)

/-- Modelled from the spec: `can_change_step_size` returns whether every
stored history point strictly precedes the candidate next step in the
stepping direction; violated ordering returns false rather than failing. -/
def AdamsBashforth.can_change_step_size (s : AdamsBashforth)
    (next : TimeStepId) (h : History) : Bool :=
  h.entries.all (fun e =>
    evolLT next.time_runs_forward e.time_step_id.step_time next.step_time)

/-- Modelled from the spec: `neighbor_data_required` answers whether
advancing from `current` to `next` covers new ground, i.e. whether `current`
precedes `next` in the StepId total order; it does not depend on the
stepper's order. -/
def AdamsBashforth.neighbor_data_required (s : AdamsBashforth)
    (next current : TimeStepId) : Bool :=
  TimeStepId.lt current next

/-- Consecutive pairs of a list: the sub-intervals between the merged step
boundaries. -/
def subIntervals : List ℚ → List (ℚ × ℚ)
  | a :: b :: rest => (a, b) :: subIntervals (b :: rest)
  | _ => []

/-- Insert a time into an evolution-ordered list, dropping duplicates. -/
def insertEvol (fwd : Bool) (x : ℚ) : List ℚ → List ℚ
  | [] => [x]
  | y :: ys =>
    if x = y then y :: ys
    else if evolLT fwd x y then x :: y :: ys
    else y :: insertEvol fwd x ys

/-- Sort times into evolution order, dropping duplicates. -/
def sortEvol (fwd : Bool) (l : List ℚ) : List ℚ := l.foldr (insertEvol fwd) []

/-- Inner pairwise sum of the boundary coupling: one local sample (value
`u`, basis `pj`) against every remote sample, each pair weighted by the
exact integral over [a, b] of the product of the two basis polynomials. -/
def pairSumR (c : ℚ → ℚ → ℚ) (u : ℚ) (pj : List ℚ) (a b : ℚ) :
    List (List ℚ) → List ℚ → ℚ
  | q :: qs, v :: vs =>
    polyIntegrate (polyMul pj q) a b * c u v + pairSumR c u pj a b qs vs
  | _, _ => 0

/-- Outer pairwise sum of the boundary coupling over the local samples. -/
def pairSumL (c : ℚ → ℚ → ℚ) (rBs : List (List ℚ)) (rVs : List ℚ)
    (a b : ℚ) : List (List ℚ) → List ℚ → ℚ
  | p :: ps, u :: us =>
    pairSumR c u p a b rBs rVs + pairSumL c rBs rVs a b ps us
  | _, _ => 0

/-- The step times of a sequence of boundary entries. -/
def bhTimes (es : List BoundaryEntry) : List ℚ :=
  es.map (fun e => e.time_step_id.step_time)

/-- The stored values of a sequence of boundary entries. -/
def bhValues (es : List BoundaryEntry) : List ℚ := es.map (fun e => e.value)

/-- The merged sub-interval boundaries of one coupling window [tS, tE]: the
window ends plus, in evolution order, every step time of either side lying
strictly inside the window. -/
def boundaryBnds (bh : BoundaryHistory) (fwd : Bool) (tS tE : ℚ) : List ℚ :=
  tS :: (sortEvol fwd ((bhTimes (bh.localSide ++ bh.remoteSide)).filter
    (fun u => evolLT fwd tS u && evolLT fwd u tE)) ++ [tE])

/-- The remote entries available (in evolution order, not after `a`) at the
start `a` of a sub-interval. -/
def remoteAvail (bh : BoundaryHistory) (fwd : Bool) (a : ℚ) :
    List BoundaryEntry :=
  bh.remoteSide.filter (fun e => evolLE fwd e.time_step_id.step_time a)

/-- Modelled from the spec: `add_boundary_delta(value, boundary_history, dt,
coupling)` integrates the coupling over [t_now, t_now + dt] (t_now being the
most recent local entry's time) by splitting the window at every interior
step boundary of either side; on each sub-interval the coupling is evaluated
once per pair of one of the most recent `order` local samples and one of the
most recent `order` remote samples available at the sub-interval start, each
pairwise contribution weighted by the integral over the sub-interval of the
product of the two sides' Lagrange basis polynomials — a normalization that
reproduces the single-rate integral when both sides share a rate. -/
def AdamsBashforth.add_boundary_delta (s : AdamsBashforth) (y : ℚ)
    (bh : BoundaryHistory) (dt : ℚ) (coupling : ℚ → ℚ → ℚ) : ℚ :=
  match bh.localSide.getLast? with
  | none => y
  | some le =>
    let fwd := decide (0 < dt)
    let tS := le.time_step_id.step_time
    let lBs := lagrangeBases (takeLast s.order (bhTimes bh.localSide))
    let locVs := takeLast s.order (bhValues bh.localSide)
    y + ((subIntervals (boundaryBnds bh fwd tS (tS + dt))).map (fun ab =>
      pairSumL coupling
        (lagrangeBases (takeLast s.order (bhTimes (remoteAvail bh fwd ab.1))))
        (takeLast s.order (bhValues (remoteAvail bh fwd ab.1)))
        ab.1 ab.2 lBs locVs)).sum

/-- Modelled from the spec: the earliest time of a side still needed by a
future coupling computation once the coupling window has advanced to `tL`
(the most recent local step time — the position at which the driver calls
`clean_boundary_history`, right after every completed boundary update).
Every future sub-interval start lies at or after `tL` and samples the most
recent `k` entries of the side available there, so the side's oldest entry
still reachable is the oldest of its most recent `k` entries at or before
`tL`; every later entry of the side remains reachable as well. When the
side holds nothing at or before `tL` nothing of its past is needed and the
window position itself is the earliest needed time. -/
def oldestNeeded (fwd : Bool) (k : ℕ) (tL : ℚ)
    (side : List BoundaryEntry) : ℚ :=
  match (takeLast k (side.filter
      (fun e => evolLE fwd e.time_step_id.step_time tL))).head? with
  | some e => e.time_step_id.step_time
  | none => tL

/-- Remove every leading entry whose validity interval — the span from its
own step time to the next entry's step time on the same side — ends at or
before `cutoff`. The last entry's validity interval never ends, so it is
always retained. -/
def dropConsumed (fwd : Bool) (cutoff : ℚ) :
    List BoundaryEntry → List BoundaryEntry
  | e1 :: e2 :: rest =>
    if evolLE fwd e2.time_step_id.step_time cutoff then
      dropConsumed fwd cutoff (e2 :: rest)
    else e1 :: e2 :: rest
  | l => l

/-- Modelled from the spec: `clean_boundary_history` removes, from each
side, every leading entry whose validity interval ends at or before the
earliest time still needed by any future coupling computation, the coupling
window having advanced to the most recent local step time by the point the
driver calls it. Retained history hence stays bounded by the order in use
(plus whatever the other side has already posted ahead of the window), not
by how many steps have elapsed. -/
def AdamsBashforth.clean_boundary_history (s : AdamsBashforth)
    (bh : BoundaryHistory) : BoundaryHistory :=
  match bh.localSide.getLast? with
  | none => bh
  | some le =>
    let fwd := le.time_step_id.time_runs_forward
    let tL := le.time_step_id.step_time
    ⟨dropConsumed fwd (oldestNeeded fwd s.order tL bh.localSide)
       bh.localSide,
     dropConsumed fwd (oldestNeeded fwd s.order tL bh.remoteSide)
       bh.remoteSide⟩

/-- Random coefficient c10 of the test's degree-1 local polynomial
(the source literal 0.949716728952811, as an exact rational). -/
def c10 : ℚ := 949716728952811 / 1000000000000000

/-- Random coefficient c11 of the test's degree-1 local polynomial. -/
def c11 : ℚ := 190663110072823 / 1000000000000000

/-- Random coefficient c20 of the test's degree-2 remote polynomial. -/
def c20 : ℚ := 932407227651314 / 1000000000000000

/-- Random coefficient c21 of the test's degree-2 remote polynomial. -/
def c21 : ℚ := 805454101952822 / 1000000000000000

/-- Random coefficient c22 of the test's degree-2 remote polynomial. -/
def c22 : ℚ := 825876851406978 / 1000000000000000

/-- The test's local driver polynomial sample, degree 1. -/
def quartic_side1 (x : ℚ) : ℚ := c10 + x * c11

/-- The test's remote driver polynomial sample, degree 2. -/
def quartic_side2 (x : ℚ) : ℚ := c20 + x * (c21 + x * c22)

/-- The closed-form antiderivative of `quartic_side1 * quartic_side2`. -/
def quartic_answer (x : ℚ) : ℚ :=
  x * (c10 * c20
       + x * ((c10 * c21 + c11 * c20) / 2
              + x * ((c10 * c22 + c11 * c21) / 3
                     + x * (c11 * c22 / 4))))

/-- The test's coupling function: the product of the local and remote
samples. -/
def quartic_coupling (l r : ℚ) : ℚ := l * r

/-- One coupling window of the `do_lts_test` driver of the source test: the
boundary history handed to `add_boundary_delta`, the window start (the local
step time the previous check stopped at) and the check time (the local step
time at which the accumulated value is compared against the closed-form
antiderivative). -/
structure LtsWindow where
  bh : BoundaryHistory
  window_start : ℚ
  check_time : ℚ
deriving DecidableEq

/-- The `do_lts_test` driver loop from the source test: insert the sample of
whichever side reaches its next step first (the local side on ties, as
`std::min_element` returns the first minimum); whenever the current time
reaches the next local step boundary, record the coupling window that
`add_boundary_delta` is called on there, clean the boundary history, and
continue until the slab boundary is reached (`none` if the fuel runs out
first). -/
def ltsLoop (dt0 dt1 : ℚ) (fwd : Bool) : ℕ → BoundaryHistory → ℚ → ℚ → ℚ →
    ℚ → List LtsWindow → Option (List LtsWindow)
  | 0, _, _, _, _, _, _ => none
  | fuel + 1, bh, t, nextCheck, next0, next1, acc =>
    let side0 : Bool := !(evolLT fwd next1 next0)
    let bh' := if side0 then
        bh.local_insert ⟨fwd, 0, 0, t⟩ 4 (quartic_side1 t)
      else
        bh.remote_insert ⟨fwd, 0, 0, t⟩ 4 (quartic_side2 t)
    let next0' := if side0 then next0 + dt0 else next0
    let next1' := if side0 then next1 else next1 + dt1
    let t' := if evolLT fwd next1' next0' then next1' else next0'
    if t' = nextCheck then
      let acc' := acc ++ [⟨bh', nextCheck - dt0, nextCheck⟩]
      if nextCheck = 0 || nextCheck = 1 then some acc'
      else ltsLoop dt0 dt1 fwd fuel
        ((AdamsBashforth.mk 4).clean_boundary_history bh') nextCheck
        (nextCheck + dt0) next0' next1' acc'
    else ltsLoop dt0 dt1 fwd fuel bh' t' nextCheck next0' next1' acc

/-- The `do_lts_test` scenario of the source test for one pair of constant
local/remote step sizes (negative steps run backward from the slab end):
three initial entries per side seeded behind the start, then the interleaved
stepping loop of `ltsLoop` over one full slab, returning the sequence of
coupling windows at which the test checks the accumulated boundary delta
(one per local step time). -/
def ltsTrace (dt0 dt1 : ℚ) : Option (List LtsWindow) :=
  let fwd := decide (0 < dt0)
  let t0 : ℚ := if fwd then 0 else 1
  let initL := fun (step : ℚ) =>
    BoundaryEntry.mk ⟨fwd, 0, 0, t0 - step * dt0⟩ 4
      (quartic_side1 (t0 - step * dt0))
  let initR := fun (step : ℚ) =>
    BoundaryEntry.mk ⟨fwd, 0, 0, t0 - step * dt1⟩ 4
      (quartic_side2 (t0 - step * dt1))
  ltsLoop dt0 dt1 fwd 200 ⟨[initL 3, initL 2, initL 1],
    [initR 3, initR 2, initR 1]⟩ t0 (t0 + dt0) t0 t0 []

/-- Decidable side conditions under which one recorded coupling window is
exact: the window runs from the most recent local entry's time over one
local step; both sides' stored values are samples of the driver polynomials
at the entries' own times; the local sample window has at least two distinct
times (the local driver has degree 1) and every sub-interval's remote sample
window has at least three distinct times (the remote driver has degree 2). -/
def windowChecks (dt0 : ℚ) (w : LtsWindow) : Bool :=
  let fwd := decide (0 < dt0)
  (match w.bh.localSide.getLast? with
   | some le => decide (le.time_step_id.step_time = w.window_start)
   | none => false) &&
  decide (w.check_time = w.window_start + dt0) &&
  w.bh.localSide.all
    (fun e => decide (e.value = quartic_side1 e.time_step_id.step_time)) &&
  w.bh.remoteSide.all
    (fun e => decide (e.value = quartic_side2 e.time_step_id.step_time)) &&
  (decide (takeLast 4 (bhTimes w.bh.localSide)).Nodup &&
   decide (2 ≤ (takeLast 4 (bhTimes w.bh.localSide)).length)) &&
  (subIntervals (boundaryBnds w.bh fwd w.window_start w.check_time)).all
    (fun ab =>
      decide (takeLast 4 (bhTimes (remoteAvail w.bh fwd ab.1))).Nodup &&
      decide (3 ≤ (takeLast 4 (bhTimes (remoteAvail w.bh fwd ab.1))).length))

/-- The LTS end-to-end property for one step-size pair: the driver loop
completes the slab, and at every local step time the boundary delta added to
the exactly-accumulated value reproduces the closed-form antiderivative of
the product of the two driver polynomials. -/
def LtsRunExact (dt0 dt1 : ℚ) : Prop :=
  match ltsTrace dt0 dt1 with
  | none => False
  | some ws => ws ≠ [] ∧ ∀ w ∈ ws,
      (AdamsBashforth.mk 4).add_boundary_delta (quartic_answer w.window_start)
        w.bh dt0 quartic_coupling = quartic_answer w.check_time

attribute [irreducible] LtsRunExact

/-- All decidable window conditions of one LTS run: the driver completes
the slab and every recorded window passes `windowChecks`. -/
def ltsChecks (dt0 dt1 : ℚ) : Bool :=
  match ltsTrace dt0 dt1 with
  | none => false
  | some ws => !ws.isEmpty && ws.all (windowChecks dt0)

/-- The constant step-size ratio pairs of the claim, as the local/remote
step sizes the source test passes to `do_lts_test`, in both time
directions. -/
def ltsConfigs : List (ℚ × ℚ) :=
  [(1/4, 1/4), (1/4, 1/8), (1/8, 1/4), (1/16, 1/4), (1/4, 1/16),
   (1/5, 1/7), (1/7, 1/5),
   (-1/4, -1/4), (-1/4, -1/8), (-1/8, -1/4), (-1/16, -1/4), (-1/4, -1/16),
   (-1/5, -1/7), (-1/7, -1/5)]

/-! The bridge from coefficient lists to Mathlib polynomials, used to prove
the polynomial-exactness properties of the coefficient engine. -/

noncomputable section PolyBridge
open Polynomial

/-- Interpretation of a coefficient list as a polynomial. -/
def toPoly : List ℚ → Polynomial ℚ
  | [] => 0
  | c :: p => C c + X * toPoly p

@[simp] theorem toPoly_nil : toPoly [] = 0 := rfl

theorem toPoly_cons (c : ℚ) (p : List ℚ) :
    toPoly (c :: p) = C c + X * toPoly p := rfl

theorem eval_toPoly (p : List ℚ) (x : ℚ) : (toPoly p).eval x = polyEval p x := by
  induction p with
  | nil => simp [polyEval]
  | cons c p ih => simp [toPoly_cons, polyEval, ih]

theorem coeff_toPoly (p : List ℚ) (n : ℕ) : (toPoly p).coeff n = p.getD n 0 := by
  induction p generalizing n with
  | nil => simp
  | cons c p ih =>
    cases n with
    | zero => simp [toPoly_cons]
    | succ n => simp [toPoly_cons, coeff_X_mul, ih]

theorem toPoly_polyAdd (p q : List ℚ) :
    toPoly (polyAdd p q) = toPoly p + toPoly q := by
  induction p generalizing q with
  | nil => simp [polyAdd]
  | cons a p ih =>
    cases q with
    | nil => simp [polyAdd]
    | cons b q =>
      simp only [polyAdd, toPoly_cons, ih, C_add]
      ring

theorem toPoly_polyScale (c : ℚ) (p : List ℚ) :
    toPoly (polyScale c p) = C c * toPoly p := by
  induction p with
  | nil => simp [polyScale]
  | cons a p ih =>
    have h : polyScale c (a :: p) = (c * a) :: polyScale c p := rfl
    rw [h, toPoly_cons, ih, toPoly_cons, C_mul]
    ring

theorem toPoly_polyMul (p q : List ℚ) :
    toPoly (polyMul p q) = toPoly p * toPoly q := by
  induction p with
  | nil => simp [polyMul]
  | cons a p ih =>
    simp only [polyMul, toPoly_polyAdd, toPoly_polyScale, toPoly_cons, ih,
      map_zero]
    ring

theorem degree_toPoly_lt (p : List ℚ) :
    (toPoly p).degree < (p.length : ℕ) := by
  rw [Polynomial.degree_lt_iff_coeff_zero]
  intro m hm
  rw [coeff_toPoly]
  simp [List.getD_eq_getElem?_getD, List.getElem?_eq_none (by exact_mod_cast hm)]

end PolyBridge

noncomputable section IntegralBridge
open Polynomial

theorem getD_polyAntiderivAux (p : List ℚ) :
    ∀ (n i : ℕ), (polyAntiderivAux n p).getD i 0 = p.getD i 0 / ((n + i : ℕ) : ℚ) := by
  induction p with
  | nil => intro n i; simp [polyAntiderivAux]
  | cons c p ih =>
    intro n i
    cases i with
    | zero => simp [polyAntiderivAux]
    | succ i =>
      have harith : n + 1 + i = n + (i + 1) := by omega
      simp only [polyAntiderivAux, List.getD_cons_succ]
      rw [ih (n + 1) i, harith]

theorem coeff0_antideriv (p : List ℚ) :
    (toPoly (polyAntideriv p)).coeff 0 = 0 := by
  rw [coeff_toPoly]; rfl

theorem derivative_antideriv (p : List ℚ) :
    derivative (toPoly (polyAntideriv p)) = toPoly p := by
  ext n
  rw [coeff_derivative, coeff_toPoly, coeff_toPoly]
  show (polyAntideriv p).getD (n + 1) 0 * ((n : ℚ) + 1) = p.getD n 0
  have h : (polyAntideriv p).getD (n + 1) 0 = (polyAntiderivAux 1 p).getD n 0 := rfl
  rw [h, getD_polyAntiderivAux p 1 n]
  have hne : ((1 + n : ℕ) : ℚ) ≠ 0 := by positivity
  have hcast : ((1 + n : ℕ) : ℚ) = (n : ℚ) + 1 := by push_cast; ring
  rw [← hcast, div_mul_cancel₀ _ hne]

theorem poly_eq_of_derivative_eq {F G : Polynomial ℚ}
    (hd : derivative F = derivative G) (h0 : F.coeff 0 = G.coeff 0) : F = G := by
  have h : derivative (F - G) = 0 := by rw [derivative_sub, hd, sub_self]
  have h2 := Polynomial.eq_C_of_derivative_eq_zero h
  rw [coeff_sub, h0, sub_self, map_zero] at h2
  exact sub_eq_zero.mp h2

theorem toPoly_antideriv_congr {p q : List ℚ} (h : toPoly p = toPoly q) :
    toPoly (polyAntideriv p) = toPoly (polyAntideriv q) :=
  poly_eq_of_derivative_eq
    (by rw [derivative_antideriv, derivative_antideriv, h])
    (by rw [coeff0_antideriv, coeff0_antideriv])

theorem polyIntegrate_congr {p q : List ℚ} (h : toPoly p = toPoly q)
    (a b : ℚ) : polyIntegrate p a b = polyIntegrate q a b := by
  unfold polyIntegrate
  rw [← eval_toPoly, ← eval_toPoly, ← eval_toPoly (polyAntideriv q),
    ← eval_toPoly (polyAntideriv q), toPoly_antideriv_congr h]

theorem toPoly_antideriv_polyAdd (p q : List ℚ) :
    toPoly (polyAntideriv (polyAdd p q))
      = toPoly (polyAntideriv p) + toPoly (polyAntideriv q) :=
  poly_eq_of_derivative_eq
    (by rw [derivative_antideriv, derivative_add, derivative_antideriv,
      derivative_antideriv, toPoly_polyAdd])
    (by rw [coeff_add, coeff0_antideriv, coeff0_antideriv, coeff0_antideriv,
      add_zero])

theorem polyIntegrate_polyAdd (p q : List ℚ) (a b : ℚ) :
    polyIntegrate (polyAdd p q) a b
      = polyIntegrate p a b + polyIntegrate q a b := by
  unfold polyIntegrate
  simp only [← eval_toPoly, toPoly_antideriv_polyAdd, eval_add]
  ring

theorem toPoly_antideriv_polyScale (c : ℚ) (p : List ℚ) :
    toPoly (polyAntideriv (polyScale c p)) = C c * toPoly (polyAntideriv p) :=
  poly_eq_of_derivative_eq
    (by rw [derivative_antideriv, derivative_C_mul, derivative_antideriv,
      toPoly_polyScale])
    (by rw [coeff_C_mul, coeff0_antideriv, coeff0_antideriv, mul_zero])

theorem polyIntegrate_polyScale (c : ℚ) (p : List ℚ) (a b : ℚ) :
    polyIntegrate (polyScale c p) a b = c * polyIntegrate p a b := by
  unfold polyIntegrate
  simp only [← eval_toPoly, toPoly_antideriv_polyScale, eval_mul, eval_C]
  ring

theorem polyIntegrate_nil (a b : ℚ) : polyIntegrate [] a b = 0 := by
  simp [polyIntegrate, polyAntideriv, polyAntiderivAux, polyEval]

theorem polyIntegrate_zero_toPoly {p : List ℚ} (h : toPoly p = 0) (a b : ℚ) :
    polyIntegrate p a b = 0 := by
  rw [polyIntegrate_congr (q := []) (by simpa using h), polyIntegrate_nil]

theorem polyIntegrate_rev (p : List ℚ) (a b : ℚ) :
    polyIntegrate p b a = -polyIntegrate p a b := by
  unfold polyIntegrate; ring

theorem polyIntegrate_trans (p : List ℚ) (a b c : ℚ) :
    polyIntegrate p a b + polyIntegrate p b c = polyIntegrate p a c := by
  unfold polyIntegrate; ring

end IntegralBridge

/-- The interpolating combination `Σ v_i · b_i` of basis polynomials and
sample values, paired positionally. -/
def interpOf : List (List ℚ) → List ℚ → List ℚ
  | b :: bs, v :: vs => polyAdd (polyScale v b) (interpOf bs vs)
  | _, _ => []

noncomputable section LagrangeBridge
open Polynomial

theorem polyEval_polyMul (p q : List ℚ) (x : ℚ) :
    polyEval (polyMul p q) x = polyEval p x * polyEval q x := by
  rw [← eval_toPoly, ← eval_toPoly, ← eval_toPoly, toPoly_polyMul, eval_mul]

theorem polyEval_polyAdd (p q : List ℚ) (x : ℚ) :
    polyEval (polyAdd p q) x = polyEval p x + polyEval q x := by
  rw [← eval_toPoly, ← eval_toPoly, ← eval_toPoly, toPoly_polyAdd, eval_add]

theorem polyEval_polyScale (c : ℚ) (p : List ℚ) (x : ℚ) :
    polyEval (polyScale c p) x = c * polyEval p x := by
  rw [← eval_toPoly, ← eval_toPoly, toPoly_polyScale, eval_mul, eval_C]

theorem polyEval_one (x : ℚ) : polyEval [1] x = 1 := by
  simp [polyEval]

theorem polyEval_foldr_polyMul (fs : List (List ℚ)) (x : ℚ) :
    polyEval (fs.foldr polyMul [1]) x = (fs.map (fun f => polyEval f x)).prod := by
  induction fs with
  | nil => simp [polyEval]
  | cons f fs ih => simp [polyEval_polyMul, ih]

theorem polyEval_lagrangeFactor (ti tj x : ℚ) :
    polyEval [(-tj) / (ti - tj), 1 / (ti - tj)] x = (x - tj) / (ti - tj) := by
  simp [polyEval]
  ring

theorem map_polyEval_lagrangeFactors (ti x : ℚ) (l : List ℚ) :
    (lagrangeFactors ti l).map (fun f => polyEval f x)
      = l.map (fun tj => (x - tj) / (ti - tj)) := by
  induction l with
  | nil => rfl
  | cons tj l ih =>
    simp only [lagrangeFactors, List.map_cons, ih, polyEval_lagrangeFactor]

theorem polyEval_lagrangeBasis (ts : List ℚ) (i : ℕ) (x : ℚ) :
    polyEval (lagrangeBasis ts i) x
      = ((ts.eraseIdx i).map
          (fun tj => (x - tj) / (ts.getD i 0 - tj))).prod := by
  rw [lagrangeBasis, polyEval_foldr_polyMul, map_polyEval_lagrangeFactors]

theorem getD_eq_getElem_of_lt (ts : List ℚ) (j : ℕ) (hj : j < ts.length) :
    ts.getD j 0 = ts[j] := by
  simp [List.getD_eq_getElem?_getD, List.getElem?_eq_getElem hj]

theorem mem_eraseIdx_ne (ts : List ℚ) (hnd : ts.Nodup) (i : ℕ)
    (hi : i < ts.length) : ∀ x ∈ ts.eraseIdx i, x ≠ ts.getD i 0 := by
  intro x hx heq
  rw [List.mem_eraseIdx_iff_getElem] at hx
  obtain ⟨j, hj, hji, hx⟩ := hx
  rw [getD_eq_getElem_of_lt ts i hi, ← hx] at heq
  exact hji ((hnd.getElem_inj_iff).mp heq)

theorem getD_mem_eraseIdx (ts : List ℚ) (i j : ℕ) (hj : j < ts.length)
    (hne : j ≠ i) : ts.getD j 0 ∈ ts.eraseIdx i := by
  rw [List.mem_eraseIdx_iff_getElem]
  exact ⟨j, hj, hne, (getD_eq_getElem_of_lt ts j hj).symm⟩

theorem lagrangeBasis_eval_self (ts : List ℚ) (hnd : ts.Nodup) (i : ℕ)
    (hi : i < ts.length) :
    polyEval (lagrangeBasis ts i) (ts.getD i 0) = 1 := by
  rw [polyEval_lagrangeBasis]
  apply List.prod_eq_one
  intro y hy
  rw [List.mem_map] at hy
  obtain ⟨tj, htj, rfl⟩ := hy
  exact div_self (sub_ne_zero.mpr (Ne.symm (mem_eraseIdx_ne ts hnd i hi tj htj)))

theorem lagrangeBasis_eval_ne (ts : List ℚ) (hnd : ts.Nodup) (i j : ℕ)
    (hj : j < ts.length) (hne : j ≠ i) :
    polyEval (lagrangeBasis ts i) (ts.getD j 0) = 0 := by
  rw [polyEval_lagrangeBasis]
  apply List.prod_eq_zero
  rw [List.mem_map]
  exact ⟨ts.getD j 0, getD_mem_eraseIdx ts i j hj hne, by simp⟩

theorem length_lagrangeFactors (ti : ℚ) (l : List ℚ) :
    (lagrangeFactors ti l).length = l.length := by
  induction l with
  | nil => rfl
  | cons tj l ih => simp [lagrangeFactors, ih]

theorem lagrangeFactor_shape (ti : ℚ) (l : List ℚ) :
    ∀ f ∈ lagrangeFactors ti l, ∃ u v : ℚ, f = [u, v] := by
  induction l with
  | nil => intro f hf; cases hf
  | cons tj l ih =>
    intro f hf
    rcases hf with _ | hf
    · exact ⟨_, _, rfl⟩
    · exact ih f (by assumption)

theorem degree_pair_le (u v : ℚ) : (toPoly [u, v]).degree ≤ 1 := by
  have h : toPoly [u, v] = C v * X + C u := by
    rw [toPoly_cons, toPoly_cons, toPoly_nil]
    ring
  rw [h]
  exact degree_linear_le

theorem degree_foldr_polyMul (fs : List (List ℚ))
    (h : ∀ f ∈ fs, (toPoly f).degree ≤ 1) :
    (toPoly (fs.foldr polyMul [1])).degree ≤ (fs.length : ℕ) := by
  induction fs with
  | nil =>
    have h1 : toPoly [1] = C 1 := by
      rw [toPoly_cons, toPoly_nil]; ring
    simp [h1, degree_C_le]
  | cons f fs ih =>
    rw [List.foldr_cons, toPoly_polyMul]
    calc (toPoly f * toPoly (fs.foldr polyMul [1])).degree
        ≤ (toPoly f).degree + (toPoly (fs.foldr polyMul [1])).degree :=
          degree_mul_le _ _
      _ ≤ 1 + (fs.length : ℕ) :=
          add_le_add (h f (List.mem_cons_self f fs)) (ih (fun g hg => h g (List.mem_cons_of_mem _ hg)))
      _ = ((f :: fs).length : ℕ) := by
          rw [List.length_cons]
          rw [show ((fs.length + 1 : ℕ) : WithBot ℕ) = ((1 + fs.length : ℕ) : WithBot ℕ) by rw [Nat.add_comm]]
          push_cast
          rfl

theorem degree_lagrangeBasis_lt (ts : List ℚ) (i : ℕ) (hi : i < ts.length) :
    (toPoly (lagrangeBasis ts i)).degree < (ts.length : ℕ) := by
  have hdeg := degree_foldr_polyMul (lagrangeFactors (ts.getD i 0) (ts.eraseIdx i))
    (fun f hf => by
      obtain ⟨u, v, rfl⟩ := lagrangeFactor_shape _ _ f hf
      exact degree_pair_le u v)
  rw [length_lagrangeFactors, List.length_eraseIdx_of_lt hi] at hdeg
  calc (toPoly (lagrangeBasis ts i)).degree
      ≤ ((ts.length - 1 : ℕ) : WithBot ℕ) := hdeg
    _ < (ts.length : ℕ) := by
        rw [Nat.cast_lt]
        omega

end LagrangeBridge

noncomputable section InterpBridge
open Polynomial

theorem polyEval_interpOf_idx (ts : List ℚ) (hnd : ts.Nodup) (f : ℚ → ℚ) :
    ∀ (L : List ℕ), (∀ m ∈ L, m < ts.length) → L.Nodup →
      ∀ j, j < ts.length →
        polyEval (interpOf (L.map (fun m => lagrangeBasis ts m))
          (L.map (fun m => f (ts.getD m 0)))) (ts.getD j 0)
          = if j ∈ L then f (ts.getD j 0) else 0 := by
  intro L
  induction L with
  | nil =>
    intro _ _ j hj
    simp [interpOf, polyEval]
  | cons m L ih =>
    intro hbound hnodup j hj
    have hrest := ih (fun x hx => hbound x (List.mem_cons_of_mem _ hx))
      (List.Nodup.of_cons hnodup) j hj
    simp only [List.map_cons]
    have hstep :
        interpOf (lagrangeBasis ts m :: L.map (fun m => lagrangeBasis ts m))
          (f (ts.getD m 0) :: L.map (fun m => f (ts.getD m 0)))
          = polyAdd (polyScale (f (ts.getD m 0)) (lagrangeBasis ts m))
            (interpOf (L.map (fun m => lagrangeBasis ts m))
              (L.map (fun m => f (ts.getD m 0)))) := rfl
    rw [hstep, polyEval_polyAdd, polyEval_polyScale, hrest]
    by_cases hjm : j = m
    · subst hjm
      rw [lagrangeBasis_eval_self ts hnd j hj]
      have hjL : j ∉ L := (List.nodup_cons.mp hnodup).1
      simp [hjL]
    · rw [lagrangeBasis_eval_ne ts hnd m j hj hjm]
      simp [List.mem_cons, hjm]

theorem degree_interpOf_lt (n : ℕ) :
    ∀ (bs : List (List ℚ)) (vs : List ℚ),
      (∀ b ∈ bs, (toPoly b).degree < (n : ℕ)) →
      (toPoly (interpOf bs vs)).degree < ((n : ℕ) : WithBot ℕ) := by
  intro bs
  induction bs with
  | nil =>
    intro vs h
    cases vs <;>
      · show (toPoly []).degree < _
        rw [toPoly_nil, degree_zero, Nat.cast_withBot]
        exact WithBot.bot_lt_coe n
  | cons b bs ih =>
    intro vs h
    cases vs with
    | nil =>
      show (toPoly []).degree < _
      rw [toPoly_nil, degree_zero, Nat.cast_withBot]
      exact WithBot.bot_lt_coe n
    | cons v vs =>
      have hstep : interpOf (b :: bs) (v :: vs)
          = polyAdd (polyScale v b) (interpOf bs vs) := rfl
      rw [hstep, toPoly_polyAdd, toPoly_polyScale]
      refine lt_of_le_of_lt (degree_add_le _ _) (max_lt ?_ ?_)
      · refine lt_of_le_of_lt (degree_mul_le _ _) ?_
        refine lt_of_le_of_lt (add_le_add degree_C_le le_rfl) ?_
        rw [zero_add]
        exact h b (List.mem_cons_self b bs)
      · exact ih vs (fun q hq => h q (List.mem_cons_of_mem _ hq))

theorem map_eq_rangeMap (f : ℚ → ℚ) (ts : List ℚ) :
    ts.map f = (List.range ts.length).map (fun m => f (ts.getD m 0)) := by
  apply List.ext_getElem (by simp)
  intro i h1 h2
  have hi : i < ts.length := by simpa using h1
  simp [getD_eq_getElem_of_lt ts i hi, List.getElem?_eq_getElem hi]

theorem toPoly_interp_samples (ts p : List ℚ) (hnd : ts.Nodup)
    (hlen : p.length ≤ ts.length) :
    toPoly (interpOf (lagrangeBases ts) (ts.map (polyEval p))) = toPoly p := by
  have hmap := map_eq_rangeMap (polyEval p) ts
  have hbases : lagrangeBases ts
      = (List.range ts.length).map (fun m => lagrangeBasis ts m) := rfl
  rw [hmap, hbases]
  apply sub_eq_zero.mp
  have hcard : ts.toFinset.card = ts.length := by
    rw [List.card_toFinset, hnd.dedup]
  apply Polynomial.eq_zero_of_degree_lt_of_eval_finset_eq_zero ts.toFinset
  · rw [hcard]
    refine lt_of_le_of_lt (degree_sub_le _ _) (max_lt ?_ ?_)
    · apply degree_interpOf_lt
      intro b hb
      rw [List.mem_map] at hb
      obtain ⟨i, hi, rfl⟩ := hb
      exact degree_lagrangeBasis_lt ts i (List.mem_range.mp hi)
    · exact lt_of_lt_of_le (degree_toPoly_lt p) (Nat.cast_le.mpr hlen)
  · intro x hx
    rw [List.mem_toFinset, List.mem_iff_getElem] at hx
    obtain ⟨j, hj, rfl⟩ := hx
    rw [← getD_eq_getElem_of_lt ts j hj, eval_sub, eval_toPoly, eval_toPoly]
    rw [polyEval_interpOf_idx ts hnd (polyEval p) (List.range ts.length)
      (fun m hm => List.mem_range.mp hm) (List.nodup_range _) j hj]
    simp [List.mem_range.mpr hj]

end InterpBridge

noncomputable section CouplingBridge
open Polynomial

theorem interpOf_nil_left (vs : List ℚ) : interpOf [] vs = [] := by
  cases vs <;> rfl

theorem interpOf_nil_right (bs : List (List ℚ)) : interpOf bs [] = [] := by
  cases bs <;> rfl

theorem polyIntegrate_polyMul_nil (pj : List ℚ) (a b : ℚ) :
    polyIntegrate (polyMul pj []) a b = 0 :=
  polyIntegrate_zero_toPoly (by rw [toPoly_polyMul, toPoly_nil, mul_zero]) a b

theorem pairSumR_mul (u : ℚ) (pj : List ℚ) (a b : ℚ) :
    ∀ (rBs : List (List ℚ)) (rVs : List ℚ),
      pairSumR quartic_coupling u pj a b rBs rVs
        = polyIntegrate (polyMul pj (polyScale u (interpOf rBs rVs))) a b := by
  intro rBs
  induction rBs with
  | nil =>
    intro rVs
    have h1 : pairSumR quartic_coupling u pj a b [] rVs = 0 := by
      cases rVs <;> rfl
    rw [h1, interpOf_nil_left]
    rw [show polyScale u ([] : List ℚ) = [] from rfl, polyIntegrate_polyMul_nil]
  | cons q qs ih =>
    intro rVs
    cases rVs with
    | nil =>
      rw [show pairSumR quartic_coupling u pj a b (q :: qs) [] = 0 from rfl,
        interpOf_nil_right]
      rw [show polyScale u ([] : List ℚ) = [] from rfl, polyIntegrate_polyMul_nil]
    | cons v vs =>
      have hstep : pairSumR quartic_coupling u pj a b (q :: qs) (v :: vs)
          = polyIntegrate (polyMul pj q) a b * quartic_coupling u v
            + pairSumR quartic_coupling u pj a b qs vs := rfl
      rw [hstep, ih vs]
      have hinterp : interpOf (q :: qs) (v :: vs)
          = polyAdd (polyScale v q) (interpOf qs vs) := rfl
      rw [hinterp]
      have hpoly : toPoly (polyMul pj
            (polyScale u (polyAdd (polyScale v q) (interpOf qs vs))))
          = toPoly (polyAdd (polyScale (u * v) (polyMul pj q))
              (polyMul pj (polyScale u (interpOf qs vs)))) := by
        simp only [toPoly_polyMul, toPoly_polyScale, toPoly_polyAdd, C_mul]
        ring
      rw [polyIntegrate_congr hpoly, polyIntegrate_polyAdd,
        polyIntegrate_polyScale]
      simp only [quartic_coupling]
      ring

theorem pairSumL_mul (rBs : List (List ℚ)) (rVs : List ℚ) (a b : ℚ) :
    ∀ (lBs : List (List ℚ)) (lVs : List ℚ),
      pairSumL quartic_coupling rBs rVs a b lBs lVs
        = polyIntegrate (polyMul (interpOf lBs lVs) (interpOf rBs rVs)) a b := by
  intro lBs
  induction lBs with
  | nil =>
    intro lVs
    have h1 : pairSumL quartic_coupling rBs rVs a b [] lVs = 0 := by
      cases lVs <;> rfl
    rw [h1, interpOf_nil_left]
    exact (polyIntegrate_zero_toPoly
      (by rw [toPoly_polyMul, toPoly_nil, zero_mul]) a b).symm
  | cons pj ps ih =>
    intro lVs
    cases lVs with
    | nil =>
      rw [show pairSumL quartic_coupling rBs rVs a b (pj :: ps) [] = 0 from rfl,
        interpOf_nil_right]
      exact (polyIntegrate_zero_toPoly
        (by rw [toPoly_polyMul, toPoly_nil, zero_mul]) a b).symm
    | cons uu us =>
      have hstep : pairSumL quartic_coupling rBs rVs a b (pj :: ps) (uu :: us)
          = pairSumR quartic_coupling uu pj a b rBs rVs
            + pairSumL quartic_coupling rBs rVs a b ps us := rfl
      rw [hstep, pairSumR_mul, ih us]
      have hinterp : interpOf (pj :: ps) (uu :: us)
          = polyAdd (polyScale uu pj) (interpOf ps us) := rfl
      have hpoly : toPoly (polyMul (interpOf (pj :: ps) (uu :: us))
            (interpOf rBs rVs))
          = toPoly (polyAdd (polyMul pj (polyScale uu (interpOf rBs rVs)))
              (polyMul (interpOf ps us) (interpOf rBs rVs))) := by
        rw [hinterp]
        simp only [toPoly_polyMul, toPoly_polyScale, toPoly_polyAdd]
        ring
      rw [polyIntegrate_congr hpoly, polyIntegrate_polyAdd]

theorem telescope_polyIntegrate (P : List ℚ) :
    ∀ (mid : List ℚ) (tS tE : ℚ),
      ((subIntervals (tS :: (mid ++ [tE]))).map
        (fun ab => polyIntegrate P ab.1 ab.2)).sum = polyIntegrate P tS tE := by
  intro mid
  induction mid with
  | nil => intro tS tE; simp [subIntervals]
  | cons m mid ih =>
    intro tS tE
    have hsub : subIntervals (tS :: ((m :: mid) ++ [tE]))
        = (tS, m) :: subIntervals (m :: (mid ++ [tE])) := rfl
    rw [hsub, List.map_cons, List.sum_cons, ih m tE]
    exact polyIntegrate_trans P tS m tE

theorem stepSum_trans (a b c : ℚ) :
    ∀ (bs : List (List ℚ)) (ds : List ℚ),
      stepSum a b bs ds + stepSum b c bs ds = stepSum a c bs ds := by
  intro bs
  induction bs with
  | nil =>
    intro ds
    have h : ∀ x y, stepSum x y ([] : List (List ℚ)) ds = 0 := by
      intro x y; cases ds <;> rfl
    rw [h, h, h, add_zero]
  | cons p ps ih =>
    intro ds
    cases ds with
    | nil => simp [stepSum]
    | cons d ds =>
      have hstep : ∀ x y, stepSum x y (p :: ps) (d :: ds)
          = polyIntegrate p x y * d + stepSum x y ps ds := by
        intro x y; rfl
      rw [hstep, hstep, hstep, ← ih ds, ← polyIntegrate_trans p a b c]
      ring

theorem telescope_stepSum (bs : List (List ℚ)) (ds : List ℚ) :
    ∀ (mid : List ℚ) (tS tE : ℚ),
      ((subIntervals (tS :: (mid ++ [tE]))).map
        (fun ab => stepSum ab.1 ab.2 bs ds)).sum = stepSum tS tE bs ds := by
  intro mid
  induction mid with
  | nil => intro tS tE; simp [subIntervals]
  | cons m mid ih =>
    intro tS tE
    have hsub : subIntervals (tS :: ((m :: mid) ++ [tE]))
        = (tS, m) :: subIntervals (m :: (mid ++ [tE])) := rfl
    rw [hsub, List.map_cons, List.sum_cons, ih m tE]
    exact stepSum_trans tS m tE bs ds

end CouplingBridge

noncomputable section WindowBridge
open Polynomial

theorem takeLast_map {α β : Type} (f : α → β) (l : List α) (n : ℕ) :
    takeLast n (l.map f) = (takeLast n l).map f := by
  simp [takeLast]

theorem bhValues_eq_map (es : List BoundaryEntry) (g : ℚ → ℚ)
    (h : ∀ e ∈ es, e.value = g e.time_step_id.step_time) :
    bhValues es = (bhTimes es).map g := by
  unfold bhValues bhTimes
  rw [List.map_map]
  exact List.map_congr_left h

theorem quartic_side1_eq_polyEval (x : ℚ) :
    quartic_side1 x = polyEval [c10, c11] x := by
  simp [quartic_side1, polyEval]

theorem quartic_side2_eq_polyEval (x : ℚ) :
    quartic_side2 x = polyEval [c20, c21, c22] x := by
  simp [quartic_side2, polyEval]

theorem quartic_answer_integral (a b : ℚ) :
    polyIntegrate (polyMul [c10, c11] [c20, c21, c22]) a b
      = quartic_answer b - quartic_answer a := by
  simp only [polyMul, polyScale, polyAdd, List.map_cons, List.map_nil,
    polyIntegrate, polyAntideriv, polyAntiderivAux, polyEval,
    List.foldr_cons, List.foldr_nil, quartic_answer]
  push_cast
  ring

theorem add_boundary_delta_some (s : AdamsBashforth) (y : ℚ)
    (bh : BoundaryHistory) (dt : ℚ) (c : ℚ → ℚ → ℚ) (le : BoundaryEntry)
    (hlast : bh.localSide.getLast? = some le) :
    s.add_boundary_delta y bh dt c
      = y + ((subIntervals (boundaryBnds bh (decide (0 < dt))
          le.time_step_id.step_time (le.time_step_id.step_time + dt))).map
          (fun ab => pairSumL c
            (lagrangeBases (takeLast s.order
              (bhTimes (remoteAvail bh (decide (0 < dt)) ab.1))))
            (takeLast s.order (bhValues (remoteAvail bh (decide (0 < dt)) ab.1)))
            ab.1 ab.2
            (lagrangeBases (takeLast s.order (bhTimes bh.localSide)))
            (takeLast s.order (bhValues bh.localSide)))).sum := by
  unfold AdamsBashforth.add_boundary_delta
  rw [hlast]

theorem boundaryBnds_shape (bh : BoundaryHistory) (fwd : Bool) (tS tE : ℚ) :
    boundaryBnds bh fwd tS tE
      = tS :: ((sortEvol fwd ((bhTimes (bh.localSide ++ bh.remoteSide)).filter
          (fun u => evolLT fwd tS u && evolLT fwd u tE))) ++ [tE]) := rfl

theorem boundary_window_exact (bh : BoundaryHistory) (dt y : ℚ)
    (le : BoundaryEntry) (hlast : bh.localSide.getLast? = some le)
    (hlv : ∀ e ∈ bh.localSide, e.value = quartic_side1 e.time_step_id.step_time)
    (hrv : ∀ e ∈ bh.remoteSide, e.value = quartic_side2 e.time_step_id.step_time)
    (hlts : (takeLast 4 (bhTimes bh.localSide)).Nodup)
    (hltl : 2 ≤ (takeLast 4 (bhTimes bh.localSide)).length)
    (hsub : ∀ ab ∈ subIntervals (boundaryBnds bh (decide (0 < dt))
        le.time_step_id.step_time (le.time_step_id.step_time + dt)),
      (takeLast 4 (bhTimes (remoteAvail bh (decide (0 < dt)) ab.1))).Nodup ∧
      3 ≤ (takeLast 4 (bhTimes (remoteAvail bh (decide (0 < dt)) ab.1))).length) :
    (AdamsBashforth.mk 4).add_boundary_delta y bh dt quartic_coupling
      = y + (quartic_answer (le.time_step_id.step_time + dt)
             - quartic_answer le.time_step_id.step_time) := by
  rw [add_boundary_delta_some (AdamsBashforth.mk 4) y bh dt quartic_coupling le
    hlast]
  have horder : (AdamsBashforth.mk 4).order = 4 := rfl
  rw [horder]
  have hlv2 : takeLast 4 (bhValues bh.localSide)
      = (takeLast 4 (bhTimes bh.localSide)).map (polyEval [c10, c11]) := by
    rw [bhValues_eq_map bh.localSide quartic_side1 hlv, takeLast_map]
    exact List.map_congr_left (fun x _ => quartic_side1_eq_polyEval x)
  have hmap : ∀ ab ∈ subIntervals (boundaryBnds bh (decide (0 < dt))
      le.time_step_id.step_time (le.time_step_id.step_time + dt)),
      pairSumL quartic_coupling
        (lagrangeBases (takeLast 4
          (bhTimes (remoteAvail bh (decide (0 < dt)) ab.1))))
        (takeLast 4 (bhValues (remoteAvail bh (decide (0 < dt)) ab.1)))
        ab.1 ab.2
        (lagrangeBases (takeLast 4 (bhTimes bh.localSide)))
        (takeLast 4 (bhValues bh.localSide))
      = polyIntegrate (polyMul [c10, c11] [c20, c21, c22]) ab.1 ab.2 := by
    intro ab hab
    obtain ⟨hrnd, hrlen⟩ := hsub ab hab
    have hrv2 : takeLast 4 (bhValues (remoteAvail bh (decide (0 < dt)) ab.1))
        = (takeLast 4 (bhTimes (remoteAvail bh (decide (0 < dt)) ab.1))).map
            (polyEval [c20, c21, c22]) := by
      rw [bhValues_eq_map (remoteAvail bh (decide (0 < dt)) ab.1) quartic_side2
        (fun e he => hrv e (List.mem_of_mem_filter he)), takeLast_map]
      exact List.map_congr_left (fun x _ => quartic_side2_eq_polyEval x)
    rw [pairSumL_mul, hlv2, hrv2]
    apply polyIntegrate_congr
    rw [toPoly_polyMul, toPoly_polyMul,
      toPoly_interp_samples _ _ hlts (by simpa using hltl),
      toPoly_interp_samples _ _ hrnd (by simpa using hrlen)]
  rw [List.map_congr_left hmap, boundaryBnds_shape, telescope_polyIntegrate,
    quartic_answer_integral]

end WindowBridge

theorem window_delta_of_checks (dt0 : ℚ) (w : LtsWindow)
    (h : windowChecks dt0 w = true) (y : ℚ) :
    (AdamsBashforth.mk 4).add_boundary_delta y w.bh dt0 quartic_coupling
      = y + (quartic_answer w.check_time - quartic_answer w.window_start) := by
  unfold windowChecks at h
  cases hlast : w.bh.localSide.getLast? with
  | none => rw [hlast] at h; simp at h
  | some le =>
    rw [hlast] at h
    simp only [Bool.and_eq_true, decide_eq_true_eq, List.all_eq_true] at h
    obtain ⟨⟨⟨⟨⟨h1, h2⟩, h3⟩, h4⟩, h5a, h5b⟩, h6⟩ := h
    rw [h2]
    have hsub : ∀ ab ∈ subIntervals (boundaryBnds w.bh (decide (0 < dt0))
        le.time_step_id.step_time (le.time_step_id.step_time + dt0)),
        (takeLast 4 (bhTimes (remoteAvail w.bh (decide (0 < dt0)) ab.1))).Nodup ∧
        3 ≤ (takeLast 4
          (bhTimes (remoteAvail w.bh (decide (0 < dt0)) ab.1))).length := by
      intro ab hab
      rw [h1, ← h2] at hab
      exact ⟨(h6 ab hab).1, (h6 ab hab).2⟩
    have hres := boundary_window_exact w.bh dt0 y le hlast
      (fun e he => h3 e he) (fun e he => h4 e he) h5a h5b hsub
    rw [h1] at hres
    exact hres

theorem lts_run_exact_of_checks (dt0 dt1 : ℚ)
    (h : ltsChecks dt0 dt1 = true) :
    LtsRunExact dt0 dt1 := by
  unfold ltsChecks at h
  unfold LtsRunExact
  cases htr : ltsTrace dt0 dt1 with
  | none => rw [htr] at h; simp at h
  | some ws =>
    rw [htr] at h
    simp only [Bool.and_eq_true, List.all_eq_true] at h
    obtain ⟨hne, hall⟩ := h
    constructor
    · intro hcon
      subst hcon
      simp at hne
    · intro w hw
      rw [window_delta_of_checks dt0 w (hall w hw)
        (quartic_answer w.window_start)]
      ring


set_option maxRecDepth 100000 in
set_option maxHeartbeats 2000000 in
/-- Claim C1: for local and remote sides stepping at constant rates with
step-ratio pairs (1:1, 1:2, 2:1, 4:1, 1:4, 5:7, 7:5), in both time
directions, repeatedly calling `add_boundary_delta` with the coupling that
multiplies a degree-1 local polynomial sample by a degree-2 remote
polynomial sample accumulates exactly (exact equality over ℚ, standing in
for "to within epsilon") the closed-form antiderivative of the product at
every local step time over one full slab. -/
theorem claim_C1_lts_polynomial_exactness :
    ∀ c ∈ ltsConfigs, LtsRunExact c.1 c.2 := by
  have hall : ltsConfigs.all (fun c => ltsChecks c.1 c.2) = true := by decide
  intro c hc
  have h := List.all_eq_true.mp hall c hc
  exact lts_run_exact_of_checks c.1 c.2 (by simpa using h)

set_option maxRecDepth 100000 in
set_option maxHeartbeats 1000000 in
/-- Claim C1 witness: the 1:1 forward configuration is among the tested
configurations and its run reproduces the antiderivative exactly. -/
theorem claim_C1_lts_polynomial_exactness_witness :
    ((1 : ℚ)/4, (1 : ℚ)/4) ∈ ltsConfigs ∧
      LtsRunExact ((1 : ℚ)/4, (1 : ℚ)/4).1 ((1 : ℚ)/4, (1 : ℚ)/4).2 :=
  ⟨by decide, claim_C1_lts_polynomial_exactness ((1 : ℚ)/4, (1 : ℚ)/4)
    (by decide)⟩

/-- Claim C5: for every stepper constructed with order k ≥ 1, the method
order query returns k and `error_estimate_order` returns k - 1. -/
theorem claim_C5_orders (k : ℕ) (hk : 1 ≤ k) :
    (AdamsBashforth.mk k).method_order = k ∧
      (AdamsBashforth.mk k).error_estimate_order = k - 1 :=
  ⟨rfl, rfl⟩

/-- Claim C5 witness: the order-4 stepper reports order 4 and error
estimate order 3. -/
theorem claim_C5_orders_witness :
    1 ≤ 4 ∧ ((AdamsBashforth.mk 4).method_order = 4 ∧
      (AdamsBashforth.mk 4).error_estimate_order = 4 - 1) :=
  ⟨by decide, claim_C5_orders 4 (by decide)⟩

/-- Claim C9: a stepper is fully determined by its construction order:
serialization round-trips to an equal stepper, and two steppers are equal
exactly when their orders are equal. -/
theorem claim_C9_serialization_roundtrip (s t : AdamsBashforth) :
    AdamsBashforth.deserialize (AdamsBashforth.serialize s) = s ∧
      (s = t ↔ s.order = t.order) := by
  refine ⟨rfl, ?_, ?_⟩
  · intro h
    rw [h]
  · intro h
    cases s
    cases t
    simp only at h
    rw [h]

/-- Claim C7: `dense_output` leaves the history untouched and is
idempotent: a repeated call at the same time against the history returned
by the first call yields the same value. -/
theorem claim_C7_dense_output_frame (s : AdamsBashforth) (y : ℚ) (h : History)
    (t : ℚ) :
    (s.dense_output y h t).2 = h ∧
      (s.dense_output y (s.dense_output y h t).2 t).1
        = (s.dense_output y h t).1 :=
  ⟨rfl, rfl⟩

theorem stepSum_rev (a b : ℚ) :
    ∀ (bs : List (List ℚ)) (ds : List ℚ),
      stepSum b a bs ds = -stepSum a b bs ds := by
  intro bs
  induction bs with
  | nil =>
    intro ds
    cases ds <;> simp [stepSum]
  | cons p ps ih =>
    intro ds
    cases ds with
    | nil => simp [stepSum]
    | cons d ds =>
      have hstep : ∀ x y, stepSum x y (p :: ps) (d :: ds)
          = polyIntegrate p x y * d + stepSum x y ps ds := fun x y => rfl
      rw [hstep, hstep, ih ds, polyIntegrate_rev]
      ring

/-- Claim C8: integrating forward from t0 = t_now to t1 = t_now + dt with
`update_u`, then accumulating the same integral-form sum backward from t1
to t0 against the same (unchanged) history, returns the state bitwise to
its original value (exactly, over ℚ). -/
theorem claim_C8_reversal (s : AdamsBashforth) (y : ℚ) (h : History)
    (dt : ℚ) :
    s.applyStep (s.update_u y h dt) h (h.lastTime + dt) h.lastTime = y := by
  unfold AdamsBashforth.update_u AdamsBashforth.applyStep
  dsimp only
  rw [stepSum_rev h.lastTime (h.lastTime + dt)]
  ring

/-- Claim C3: `can_change_step_size` is false whenever some history point
fails to lie strictly before the candidate next step in the stepping
direction (in either time direction), and true for the forward history at
times {0, 1/2} with candidate next time 1. -/
theorem claim_C3_can_change_step_size :
    (∀ (s : AdamsBashforth) (next : TimeStepId) (h : History),
      (∃ e ∈ h.entries,
        evolLT next.time_runs_forward e.time_step_id.step_time next.step_time
          = false) →
      s.can_change_step_size next h = false) ∧
    (AdamsBashforth.mk 2).can_change_step_size ⟨true, 4, 0, 1⟩
      (((History.mk 2 []).insert ⟨true, 0, 0, 0⟩ 0 0).insert
        ⟨true, 2, 0, 1/2⟩ 0 0) = true := by
  constructor
  · intro s next h ⟨e, he, hlt⟩
    unfold AdamsBashforth.can_change_step_size
    rw [Bool.eq_false_iff]
    intro hall
    rw [List.all_eq_true] at hall
    rw [hall e he] at hlt
    cases hlt
  · decide

/-- Claim C3 witness: a forward history containing the point 1/2 with the
candidate next step also at time 1/2 is rejected, and the in-order history
{0, 1/2} with candidate time 1 is accepted. -/
theorem claim_C3_can_change_step_size_witness :
    (AdamsBashforth.mk 2).can_change_step_size ⟨true, 4, 0, 1/2⟩
      (((History.mk 2 []).insert ⟨true, 0, 0, 0⟩ 0 0).insert
        ⟨true, 2, 0, 1/2⟩ 0 0) = false ∧
    (AdamsBashforth.mk 2).can_change_step_size ⟨true, 4, 0, 1⟩
      (((History.mk 2 []).insert ⟨true, 0, 0, 0⟩ 0 0).insert
        ⟨true, 2, 0, 1/2⟩ 0 0) = true :=
  ⟨claim_C3_can_change_step_size.1 (AdamsBashforth.mk 2) ⟨true, 4, 0, 1/2⟩
      (((History.mk 2 []).insert ⟨true, 0, 0, 0⟩ 0 0).insert
        ⟨true, 2, 0, 1/2⟩ 0 0)
      ⟨⟨⟨true, 2, 0, 1/2⟩, 0, 0⟩, by decide, by decide⟩,
   claim_C3_can_change_step_size.2⟩

/-- Claim C4 counterexample: at equal step times but differing substeps,
`neighbor_data_required` returns true, refuting the claim's assertion that
it is false whenever the two step ids have equal times. -/
theorem claim_C4_neighbor_data_required_counterexample :
    (AdamsBashforth.mk 4).neighbor_data_required ⟨true, 0, 1, 0⟩
      ⟨true, 0, 0, 0⟩ = true := by decide

/-- Claim C4 (amended): `neighbor_data_required` does not depend on the
stepper's order; it returns true exactly when the current step id strictly
precedes the next one in the direction-aware StepId order — the time
strictly precedes, or the times are equal and the substep is smaller — and
in particular it is false when both the times and the substeps are equal. -/
theorem claim_C4_neighbor_data_required_amended (s1 s2 : AdamsBashforth)
    (next current : TimeStepId) :
    (s1.neighbor_data_required next current
      = s2.neighbor_data_required next current) ∧
    (s1.neighbor_data_required next current = true ↔
      (evolLT current.time_runs_forward current.step_time next.step_time = true
        ∨ (current.step_time = next.step_time
            ∧ current.substep < next.substep))) ∧
    (current.step_time = next.step_time → current.substep = next.substep →
      s1.neighbor_data_required next current = false) := by
  refine ⟨rfl, ?_, ?_⟩
  · unfold AdamsBashforth.neighbor_data_required TimeStepId.lt
    simp [Bool.or_eq_true, Bool.and_eq_true, decide_eq_true_eq]
  · intro ht hs
    unfold AdamsBashforth.neighbor_data_required TimeStepId.lt evolLT
    rw [ht, hs]
    cases current.time_runs_forward <;> simp

/-- Claim C4 witness: at fully equal step ids the predicate is false, for
two steppers of different orders. -/
theorem claim_C4_neighbor_data_required_amended_witness :
    (AdamsBashforth.mk 4).neighbor_data_required ⟨true, 0, 0, 0⟩
      ⟨true, 0, 0, 0⟩ = false :=
  (claim_C4_neighbor_data_required_amended (AdamsBashforth.mk 4)
    (AdamsBashforth.mk 2) ⟨true, 0, 0, 0⟩ ⟨true, 0, 0, 0⟩).2.2 rfl rfl

theorem stepSum_eq_integral_interp (a b : ℚ) :
    ∀ (bs : List (List ℚ)) (vs : List ℚ),
      stepSum a b bs vs = polyIntegrate (interpOf bs vs) a b := by
  intro bs
  induction bs with
  | nil =>
    intro vs
    have h0 : stepSum a b [] vs = 0 := by cases vs <;> rfl
    rw [h0, interpOf_nil_left, polyIntegrate_nil]
  | cons p ps ih =>
    intro vs
    cases vs with
    | nil =>
      rw [show stepSum a b (p :: ps) [] = 0 from rfl, interpOf_nil_right,
        polyIntegrate_nil]
    | cons v vs =>
      have hstep : stepSum a b (p :: ps) (v :: vs)
          = polyIntegrate p a b * v + stepSum a b ps vs := rfl
      have hinterp : interpOf (p :: ps) (v :: vs)
          = polyAdd (polyScale v p) (interpOf ps vs) := rfl
      rw [hstep, ih vs, hinterp, polyIntegrate_polyAdd,
        polyIntegrate_polyScale]
      ring

/-- Claim C2: for every order k ≥ 1 and every history of k entries at
distinct (possibly non-uniformly spaced, slab-spanning) times whose stored
derivatives are samples of a polynomial of degree < k, `update_u` adds to
the value exactly the definite integral of that polynomial over
[t_now, t_now + dt] (exact equality over ℚ, standing in for "to within
epsilon"). -/
theorem claim_C2_update_u_polynomial_exact (s : AdamsBashforth) (y : ℚ)
    (h : History) (dt : ℚ) (p : List ℚ)
    (hlen : h.entries.length = s.order)
    (hnd : (h.entries.map (fun e => e.time_step_id.step_time)).Nodup)
    (hp : p.length ≤ s.order)
    (hd : ∀ e ∈ h.entries,
      e.derivative = polyEval p e.time_step_id.step_time) :
    s.update_u y h dt = y + polyIntegrate p h.lastTime (h.lastTime + dt) := by
  unfold AdamsBashforth.update_u AdamsBashforth.applyStep
  dsimp only
  have htake : takeLast s.order h.entries = h.entries := by
    unfold takeLast
    rw [hlen, Nat.sub_self]
    rfl
  rw [htake]
  have hds : h.entries.map (fun e => e.derivative)
      = (h.entries.map (fun e => e.time_step_id.step_time)).map
          (polyEval p) := by
    rw [List.map_map]
    exact List.map_congr_left hd
  rw [hds, stepSum_eq_integral_interp]
  congr 1
  apply polyIntegrate_congr
  exact toPoly_interp_samples _ p hnd (by rw [List.length_map, hlen]; exact hp)

/-- A concrete two-entry history sampling the derivative polynomial x. -/
def histC2 : History :=
  ⟨2, [⟨⟨true, 0, 0, 0⟩, 0, 0⟩, ⟨⟨true, 0, 0, 1⟩, 0, 1⟩]⟩

/-- Claim C2 witness: the order-2 stepper on the concrete history sampling
the derivative x adds exactly its integral. -/
theorem claim_C2_update_u_polynomial_exact_witness :
    histC2.entries.length = (AdamsBashforth.mk 2).order ∧
    (AdamsBashforth.mk 2).update_u 0 histC2 1
      = 0 + polyIntegrate [0, 1] histC2.lastTime (histC2.lastTime + 1) :=
  ⟨by decide, claim_C2_update_u_polynomial_exact (AdamsBashforth.mk 2) 0
    histC2 1 [0, 1] (by decide) (by decide) (by decide) (by decide)⟩

theorem length_takeLast_le {α : Type} (n : ℕ) (l : List α) :
    (takeLast n l).length ≤ n := by
  unfold takeLast
  rw [List.length_drop]
  omega

theorem takeLast_getLast? {α : Type} (n : ℕ) (l : List α) (hn : 1 ≤ n)
    (hl : l ≠ []) : (takeLast n l).getLast? = l.getLast? := by
  have h0 : 0 < l.length := List.length_pos.mpr hl
  unfold takeLast
  rw [List.getLast?_eq_getElem?, List.getLast?_eq_getElem?, List.length_drop,
    List.getElem?_drop]
  congr 1
  omega

theorem takeLast_takeLast {α : Type} (n : ℕ) (l : List α) :
    takeLast n (takeLast n l) = takeLast n l := by
  unfold takeLast
  rw [List.length_drop, List.drop_drop]
  congr 1
  omega

theorem takeLast_subset {α : Type} (n : ℕ) (l : List α) :
    ∀ x ∈ takeLast n l, x ∈ l := by
  intro x hx
  exact List.drop_subset _ l hx

theorem evolLE_refl (fwd : Bool) (a : ℚ) : evolLE fwd a a = true := by
  cases fwd <;> simp [evolLE]

theorem evolLE_trans (fwd : Bool) (a b c : ℚ) (h1 : evolLE fwd a b = true)
    (h2 : evolLE fwd b c = true) : evolLE fwd a c = true := by
  cases fwd <;> simp [evolLE] at h1 h2 ⊢
  · exact le_trans h2 h1
  · exact le_trans h1 h2

theorem evolLE_of_evolLT (fwd : Bool) (a b : ℚ) (h : evolLT fwd a b = true) :
    evolLE fwd a b = true := by
  cases fwd <;> simp [evolLT, evolLE] at h ⊢ <;> exact le_of_lt h

theorem evolLT_eq_false_of_le (fwd : Bool) (a b : ℚ)
    (h : evolLE fwd a b = true) : evolLT fwd b a = false := by
  cases fwd <;> simp [evolLT, evolLE] at h ⊢ <;> exact h

theorem mem_subIntervals_fst :
    ∀ (l : List ℚ) (ab : ℚ × ℚ), ab ∈ subIntervals l → ab.1 ∈ l := by
  intro l
  induction l with
  | nil => intro ab hab; cases hab
  | cons x rest ih =>
    intro ab hab
    cases rest with
    | nil => cases hab
    | cons y rest2 =>
      rcases List.mem_cons.mp hab with hab2 | hab2
      · rw [hab2]; exact List.mem_cons_self _ _
      · exact List.mem_cons_of_mem x (ih ab hab2)

theorem mem_insertEvol (fwd : Bool) (x y : ℚ) :
    ∀ (l : List ℚ), y ∈ insertEvol fwd x l → y = x ∨ y ∈ l := by
  intro l
  induction l with
  | nil =>
    intro h
    unfold insertEvol at h
    rcases List.mem_cons.mp h with h2 | h2
    · exact Or.inl h2
    · cases h2
  | cons z zs ih =>
    intro h
    unfold insertEvol at h
    by_cases hxz : x = z
    · rw [if_pos hxz] at h
      exact Or.inr h
    · rw [if_neg hxz] at h
      by_cases hlt : evolLT fwd x z = true
      · rw [if_pos hlt] at h
        rcases List.mem_cons.mp h with h2 | h2
        · exact Or.inl h2
        · exact Or.inr h2
      · rw [if_neg hlt] at h
        rcases List.mem_cons.mp h with h2 | h2
        · rw [h2]; exact Or.inr (List.mem_cons_self z zs)
        · rcases ih h2 with h3 | h3
          · exact Or.inl h3
          · exact Or.inr (List.mem_cons_of_mem z h3)

theorem mem_sortEvol (fwd : Bool) (y : ℚ) :
    ∀ (l : List ℚ), y ∈ sortEvol fwd l → y ∈ l := by
  intro l
  induction l with
  | nil => intro h; cases h
  | cons z zs ih =>
    intro h
    unfold sortEvol at h
    rw [List.foldr_cons] at h
    rcases mem_insertEvol fwd z y _ h with h2 | h2
    · rw [h2]; exact List.mem_cons_self z zs
    · exact List.mem_cons_of_mem z (ih h2)

theorem mem_boundaryBnds_le (bh : BoundaryHistory) (dt tS : ℚ) (x : ℚ)
    (hx : x ∈ boundaryBnds bh (decide (0 < dt)) tS (tS + dt)) :
    evolLE (decide (0 < dt)) tS x = true := by
  unfold boundaryBnds at hx
  rcases List.mem_cons.mp hx with hx2 | hx2
  · rw [hx2]; exact evolLE_refl _ tS
  · rcases List.mem_append.mp hx2 with h3 | h3
    · have h4 := mem_sortEvol _ _ _ h3
      have h5 := List.mem_filter.mp h4
      exact evolLE_of_evolLT _ _ _ (Bool.and_elim_left h5.2)
    · have h4 : x = tS + dt := by
        rcases List.mem_cons.mp h3 with h5 | h5
        · exact h5
        · cases h5
      rw [h4]
      by_cases hdt : 0 < dt
      · simp [evolLE, hdt]
        linarith
      · simp [evolLE, hdt]
        linarith [le_of_not_lt hdt]
theorem length_takeLast_eq {α : Type} (n : ℕ) (l : List α) :
    (takeLast n l).length = min n l.length := by
  unfold takeLast
  rw [List.length_drop]
  omega

theorem nodup_takeLast {α : Type} (n : ℕ) (l : List α) (h : l.Nodup) :
    (takeLast n l).Nodup :=
  List.Nodup.sublist (List.drop_sublist _ _) h

theorem filterWindow_nil (fwd : Bool) (tS tE : ℚ) (ts : List ℚ)
    (h : ∀ u ∈ ts, evolLE fwd u tS = true) :
    ts.filter (fun u => evolLT fwd tS u && evolLT fwd u tE) = [] := by
  rw [List.filter_eq_nil_iff]
  intro u hu hcontra
  rw [evolLT_eq_false_of_le fwd u tS (h u hu)] at hcontra
  simp at hcontra

theorem boundaryBnds_no_interior (bh : BoundaryHistory) (fwd : Bool)
    (tS tE : ℚ)
    (h : ∀ u ∈ bhTimes (bh.localSide ++ bh.remoteSide),
      evolLE fwd u tS = true) :
    boundaryBnds bh fwd tS tE = [tS, tE] := by
  rw [boundaryBnds_shape, filterWindow_nil fwd tS tE _ h]
  rfl

theorem pairSumR_fst (u : ℚ) (pj : List ℚ) (a b : ℚ) :
    ∀ (rBs : List (List ℚ)) (rVs : List ℚ),
      pairSumR (fun l r => l) u pj a b rBs rVs
        = pairSumR quartic_coupling u pj a b rBs (rVs.map (fun _ => 1)) := by
  intro rBs
  induction rBs with
  | nil => intro rVs; cases rVs <;> rfl
  | cons q qs ih =>
    intro rVs
    cases rVs with
    | nil => rfl
    | cons v vs =>
      have h1 : pairSumR (fun l r => l) u pj a b (q :: qs) (v :: vs)
          = polyIntegrate (polyMul pj q) a b * u
            + pairSumR (fun l r => l) u pj a b qs vs := rfl
      have h2 : pairSumR quartic_coupling u pj a b (q :: qs)
            ((v :: vs).map (fun _ => 1))
          = polyIntegrate (polyMul pj q) a b * quartic_coupling u 1
            + pairSumR quartic_coupling u pj a b qs (vs.map (fun _ => 1)) := rfl
      rw [h1, h2, ih vs]
      unfold quartic_coupling
      ring

theorem pairSumL_fst (rBs : List (List ℚ)) (rVs : List ℚ) (a b : ℚ) :
    ∀ (lBs : List (List ℚ)) (lVs : List ℚ),
      pairSumL (fun l r => l) rBs rVs a b lBs lVs
        = pairSumL quartic_coupling rBs (rVs.map (fun _ => 1)) a b lBs lVs := by
  intro lBs
  induction lBs with
  | nil => intro lVs; cases lVs <;> rfl
  | cons pj ps ih =>
    intro lVs
    cases lVs with
    | nil => rfl
    | cons uu us =>
      have h1 : pairSumL (fun l r => l) rBs rVs a b (pj :: ps) (uu :: us)
          = pairSumR (fun l r => l) uu pj a b rBs rVs
            + pairSumL (fun l r => l) rBs rVs a b ps us := rfl
      have h2 : pairSumL quartic_coupling rBs (rVs.map (fun _ => 1)) a b
            (pj :: ps) (uu :: us)
          = pairSumR quartic_coupling uu pj a b rBs (rVs.map (fun _ => 1))
            + pairSumL quartic_coupling rBs (rVs.map (fun _ => 1)) a b ps us :=
        rfl
      rw [h1, h2, ih us, pairSumR_fst]

theorem map_one_of_length_eq {α β : Type} :
    ∀ (l1 : List α) (l2 : List β), l1.length = l2.length →
      l1.map (fun _ => (1:ℚ)) = l2.map (fun _ => (1:ℚ)) := by
  intro l1
  induction l1 with
  | nil =>
    intro l2 h
    cases l2 with
    | nil => rfl
    | cons b bs => simp at h
  | cons a as ih =>
    intro l2 h
    cases l2 with
    | nil => simp at h
    | cons b bs =>
      simp only [List.map_cons]
      rw [ih bs (by simpa using h)]

noncomputable section OnesBridge
open Polynomial

theorem toPoly_one_list : toPoly [1] = 1 := by
  rw [toPoly_cons, toPoly_nil]
  simp

theorem toPoly_interp_ones (ts : List ℚ) (hnd : ts.Nodup)
    (hlen : 1 ≤ ts.length) :
    toPoly (interpOf (lagrangeBases ts) (ts.map (fun _ => 1))) = 1 := by
  have h1 : ts.map (fun _ => (1:ℚ)) = ts.map (polyEval [1]) := by
    apply List.map_congr_left
    intro x hx
    show (1:ℚ) = polyEval [1] x
    simp [polyEval]
  rw [h1, toPoly_interp_samples ts [1] hnd (by simpa using hlen),
    toPoly_one_list]

theorem polyIntegrate_polyMul_one (P Q : List ℚ) (hQ : toPoly Q = 1)
    (a b : ℚ) : polyIntegrate (polyMul P Q) a b = polyIntegrate P a b := by
  apply polyIntegrate_congr
  rw [toPoly_polyMul, hQ, mul_one]

end OnesBridge
theorem applyStep_lists (s : AdamsBashforth) (y a b : ℚ) (h : History)
    (ts vs : List ℚ)
    (hts : (takeLast s.order h.entries).map
      (fun e => e.time_step_id.step_time) = ts)
    (hvs : (takeLast s.order h.entries).map (fun e => e.derivative) = vs) :
    s.applyStep y h a b = y + stepSum a b (lagrangeBases ts) vs := by
  show y + stepSum a b
      (lagrangeBases ((takeLast s.order h.entries).map
        (fun e => e.time_step_id.step_time)))
      ((takeLast s.order h.entries).map (fun e => e.derivative)) = _
  rw [hts, hvs]

theorem update_u_of_boundary_map (s : AdamsBashforth) (y dt : ℚ)
    (l : List BoundaryEntry) (hne : l ≠ []) :
    s.update_u y ⟨s.order, l.map
        (fun e => ⟨e.time_step_id, 0, e.value⟩)⟩ dt
      = y + stepSum (l.getLast hne).time_step_id.step_time
          ((l.getLast hne).time_step_id.step_time + dt)
          (lagrangeBases (takeLast s.order (bhTimes l)))
          (takeLast s.order (bhValues l)) := by
  have hlast : l.getLast? = some (l.getLast hne) :=
    List.getLast?_eq_getLast _ hne
  have hlt : History.lastTime ⟨s.order, l.map
        (fun e => (⟨e.time_step_id, 0, e.value⟩ : HistoryEntry))⟩
      = (l.getLast hne).time_step_id.step_time := by
    show (match (l.map (fun e =>
        (⟨e.time_step_id, 0, e.value⟩ : HistoryEntry))).getLast? with
      | none => 0
      | some e => e.time_step_id.step_time)
      = (l.getLast hne).time_step_id.step_time
    rw [List.getLast?_map, hlast]
    rfl
  unfold AdamsBashforth.update_u
  rw [hlt]
  apply applyStep_lists
  · rw [takeLast_map, List.map_map]
    show (takeLast s.order l).map (fun e => e.time_step_id.step_time)
      = takeLast s.order (bhTimes l)
    unfold bhTimes
    rw [takeLast_map]
  · rw [takeLast_map, List.map_map]
    show (takeLast s.order l).map (fun e => e.value)
      = takeLast s.order (bhValues l)
    unfold bhValues
    rw [takeLast_map]

/-- Claim C10: for a stepper of any order `k` (the order-3 instance of the
source test included) handed local and remote boundary sides whose entries
carry the same step ids — the local last time being the newest time of
either side and the local times distinct — `add_boundary_delta` with the
coupling that returns its local argument unchanged produces exactly the
state `update_u` yields on the volume history holding those local values as
derivatives over the same step interval: the boundary path refines the
volume path. -/
theorem claim_C10_boundary_refines_volume (s : AdamsBashforth)
    (bh : BoundaryHistory) (y dt : ℚ) (hk : 1 ≤ s.order)
    (hne : bh.localSide ≠ [])
    (hids : bh.localSide.map (fun e => e.time_step_id)
        = bh.remoteSide.map (fun e => e.time_step_id))
    (hnd : (bhTimes bh.localSide).Nodup)
    (hfl : ∀ u ∈ bhTimes bh.localSide, evolLE (decide (0 < dt)) u
      (bh.localSide.getLast hne).time_step_id.step_time = true) :
    s.add_boundary_delta y bh dt (fun l r => l)
      = s.update_u y ⟨s.order, bh.localSide.map
          (fun e => ⟨e.time_step_id, 0, e.value⟩)⟩ dt := by
  have htimes : bhTimes bh.remoteSide = bhTimes bh.localSide := by
    show bh.remoteSide.map (fun e => e.time_step_id.step_time)
      = bh.localSide.map (fun e => e.time_step_id.step_time)
    have h2 : bh.remoteSide.map (fun e => e.time_step_id.step_time)
        = (bh.remoteSide.map (fun e => e.time_step_id)).map
            (fun i => i.step_time) := by
      rw [List.map_map]
      rfl
    have h1 : bh.localSide.map (fun e => e.time_step_id.step_time)
        = (bh.localSide.map (fun e => e.time_step_id)).map
            (fun i => i.step_time) := by
      rw [List.map_map]
      rfl
    rw [h1, h2, hids]
  have hfr : ∀ u ∈ bhTimes bh.remoteSide, evolLE (decide (0 < dt)) u
      (bh.localSide.getLast hne).time_step_id.step_time = true := by
    rw [htimes]
    exact hfl
  have hlast : bh.localSide.getLast? = some (bh.localSide.getLast hne) :=
    List.getLast?_eq_getLast _ hne
  rw [add_boundary_delta_some s y bh dt (fun l r => l)
      (bh.localSide.getLast hne) hlast]
  have hall : ∀ u ∈ bhTimes (bh.localSide ++ bh.remoteSide),
      evolLE (decide (0 < dt)) u
        (bh.localSide.getLast hne).time_step_id.step_time = true := by
    intro u hu
    unfold bhTimes at hu
    rw [List.map_append] at hu
    rcases List.mem_append.mp hu with h2 | h2
    · exact hfl u h2
    · exact hfr u h2
  rw [boundaryBnds_no_interior bh (decide (0 < dt)) _ _ hall]
  have hsubI : subIntervals
        [(bh.localSide.getLast hne).time_step_id.step_time,
         (bh.localSide.getLast hne).time_step_id.step_time + dt]
      = [((bh.localSide.getLast hne).time_step_id.step_time,
          (bh.localSide.getLast hne).time_step_id.step_time + dt)] := rfl
  rw [hsubI]
  simp only [List.map_cons, List.map_nil, List.sum_cons, List.sum_nil,
    add_zero]
  have hra : remoteAvail bh (decide (0 < dt))
      (bh.localSide.getLast hne).time_step_id.step_time = bh.remoteSide := by
    unfold remoteAvail
    apply List.filter_eq_self.mpr
    intro e he
    exact hfr _ (List.mem_map_of_mem _ he)
  rw [hra, htimes, pairSumL_fst, pairSumL_mul]
  have hones : (takeLast s.order (bhValues bh.remoteSide)).map
        (fun _ => (1:ℚ))
      = (takeLast s.order (bhTimes bh.localSide)).map (fun _ => (1:ℚ)) := by
    apply map_one_of_length_eq
    rw [length_takeLast_eq, length_takeLast_eq]
    have h3 := congrArg List.length hids
    rw [List.length_map, List.length_map] at h3
    show min s.order (bhValues bh.remoteSide).length
      = min s.order (bhTimes bh.localSide).length
    unfold bhValues bhTimes
    rw [List.length_map, List.length_map, h3]
  rw [hones]
  have hlen1 : 1 ≤ (takeLast s.order (bhTimes bh.localSide)).length := by
    rw [length_takeLast_eq]
    have h0 : 0 < bh.localSide.length := List.length_pos.mpr hne
    unfold bhTimes
    rw [List.length_map]
    omega
  have hndt : (takeLast s.order (bhTimes bh.localSide)).Nodup :=
    nodup_takeLast _ _ hnd
  rw [polyIntegrate_polyMul_one _ _ (toPoly_interp_ones _ hndt hlen1),
    ← stepSum_eq_integral_interp,
    update_u_of_boundary_map s y dt bh.localSide hne]
/-- Concrete boundary history for the C10 witness: an order-3 pair of sides
sharing the step ids at times 0, 1/2 and 1, with differing stored values. -/
def bhC10 : BoundaryHistory :=
  ⟨[⟨⟨true, 0, 0, 0⟩, 3, 2⟩, ⟨⟨true, 0, 0, 1/2⟩, 3, 5⟩,
    ⟨⟨true, 0, 0, 1⟩, 3, 7⟩],
   [⟨⟨true, 0, 0, 0⟩, 3, 11⟩, ⟨⟨true, 0, 0, 1/2⟩, 3, 13⟩,
    ⟨⟨true, 0, 0, 1⟩, 3, 17⟩]⟩

/-- Claim C10 witness: the order-3 stepper on concrete shared-id sides — the
boundary delta with the local-projection coupling equals the volume update
on the history of local values. -/
theorem claim_C10_boundary_refines_volume_witness :
    (bhC10.localSide ≠ [] ∧
     bhC10.localSide.map (fun e => e.time_step_id)
       = bhC10.remoteSide.map (fun e => e.time_step_id) ∧
     (bhTimes bhC10.localSide).Nodup) ∧
    (AdamsBashforth.mk 3).add_boundary_delta 9 bhC10 (1/3) (fun l r => l)
      = (AdamsBashforth.mk 3).update_u 9 ⟨3, bhC10.localSide.map
          (fun e => ⟨e.time_step_id, 0, e.value⟩)⟩ (1/3) := by
  have hne : bhC10.localSide ≠ [] := by decide
  have hfl : ∀ u ∈ bhTimes bhC10.localSide, evolLE (decide ((0:ℚ) < 1/3)) u
      (bhC10.localSide.getLast hne).time_step_id.step_time = true := by
    show ∀ u ∈ bhTimes bhC10.localSide,
      evolLE (decide ((0:ℚ) < 1/3)) u 1 = true
    decide
  exact ⟨⟨hne, by decide, by decide⟩,
    claim_C10_boundary_refines_volume (AdamsBashforth.mk 3) bhC10 9 (1/3)
      (by decide) hne (by decide) (by decide) hfl⟩
theorem evolLT_of_not_le (fwd : Bool) (a b : ℚ) (h : evolLE fwd a b = false) :
    evolLT fwd b a = true := by
  cases fwd <;> simp [evolLE, evolLT] at h ⊢ <;> exact h

theorem evolLE_eq_false_of_lt (fwd : Bool) (a b : ℚ)
    (h : evolLT fwd a b = true) : evolLE fwd b a = false := by
  cases fwd <;> simp [evolLE, evolLT] at h ⊢ <;> exact h

theorem evolLT_trans (fwd : Bool) (a b c : ℚ) (h1 : evolLT fwd a b = true)
    (h2 : evolLT fwd b c = true) : evolLT fwd a c = true := by
  cases fwd <;> simp [evolLT] at h1 h2 ⊢
  · exact lt_trans h2 h1
  · exact lt_trans h1 h2

theorem evolLT_asymm (fwd : Bool) (a b : ℚ) (h : evolLT fwd a b = true) :
    evolLT fwd b a = false := by
  cases fwd <;> simp [evolLT] at h ⊢ <;> exact le_of_lt h

theorem evolLT_of_le_lt (fwd : Bool) (a b c : ℚ) (h1 : evolLE fwd a b = true)
    (h2 : evolLT fwd b c = true) : evolLT fwd a c = true := by
  cases fwd <;> simp [evolLE, evolLT] at h1 h2 ⊢
  · exact lt_of_lt_of_le h2 h1
  · exact lt_of_le_of_lt h1 h2

theorem takeLast_drop {α : Type} (k j : ℕ) (l : List α)
    (h : j + k ≤ l.length) : takeLast k (l.drop j) = takeLast k l := by
  unfold takeLast
  rw [List.drop_drop, List.length_drop]
  congr 1
  omega

theorem takeLast_all {α : Type} (k : ℕ) (l : List α) (h : l.length ≤ k) :
    takeLast k l = l := by
  unfold takeLast
  have h0 : l.length - k = 0 := by omega
  rw [h0, List.drop_zero]

theorem takeLast_cons_of_le {α : Type} (k : ℕ) (a : α) (l : List α)
    (h : k ≤ l.length) : takeLast k (a :: l) = takeLast k l := by
  unfold takeLast
  have h0 : (a :: l).length - k = (l.length - k) + 1 := by
    rw [List.length_cons]
    omega
  rw [h0, List.drop_succ_cons]

/-- The data-model insertion invariant of one boundary-history side: entries
appear in strictly increasing evolution order of their step times. -/
@[reducible] def entriesSorted (fwd : Bool) (es : List BoundaryEntry) : Prop :=
  es.Pairwise (fun a b =>
    evolLT fwd a.time_step_id.step_time b.time_step_id.step_time = true)

theorem entriesSorted_le_getLast (fwd : Bool) (es : List BoundaryEntry)
    (hne : es ≠ []) (hs : entriesSorted fwd es) :
    ∀ e ∈ es, evolLE fwd e.time_step_id.step_time
      (es.getLast hne).time_step_id.step_time = true := by
  intro e he
  obtain ⟨i, hi⟩ := List.mem_iff_get.mp he
  rw [show es.getLast hne = es.get ⟨es.length - 1,
    by have := List.length_pos.mpr hne; omega⟩ from List.getLast_eq_getElem es hne]
  rcases Nat.lt_or_ge i.1 (es.length - 1) with hlt | hge
  · exact evolLE_of_evolLT _ _ _ (by
      rw [← hi]
      exact List.pairwise_iff_get.mp hs i ⟨es.length - 1, by omega⟩ hlt)
  · have hieq : i = (⟨es.length - 1, by omega⟩ : Fin es.length) := by
      apply Fin.ext
      have := i.2
      simp only []
      omega
    rw [← hi, hieq]
    exact evolLE_refl _ _

theorem sorted_split_le (fwd : Bool) (tL : ℚ) :
    ∀ (es : List BoundaryEntry), entriesSorted fwd es →
      ∃ F A, es = F ++ A
        ∧ (∀ e ∈ F, evolLE fwd e.time_step_id.step_time tL = true)
        ∧ (∀ e ∈ A, evolLE fwd e.time_step_id.step_time tL = false) := by
  intro es
  induction es with
  | nil =>
    intro _
    exact ⟨[], [], rfl, by simp, by simp⟩
  | cons e tl ih =>
    intro hs
    have hhead := (List.pairwise_cons.mp hs).1
    have htl := (List.pairwise_cons.mp hs).2
    cases hpe : evolLE fwd e.time_step_id.step_time tL with
    | true =>
      obtain ⟨F, A, heq, hF, hA⟩ := ih htl
      refine ⟨e :: F, A, by rw [List.cons_append, heq], ?_, hA⟩
      intro x hx
      rcases List.mem_cons.mp hx with hx2 | hx2
      · rw [hx2]; exact hpe
      · exact hF x hx2
    | false =>
      refine ⟨[], e :: tl, rfl, by simp, ?_⟩
      intro x hx
      rcases List.mem_cons.mp hx with hx2 | hx2
      · rw [hx2]; exact hpe
      · exact evolLE_eq_false_of_lt fwd tL _
          (evolLT_trans fwd tL _ _
            (evolLT_of_not_le fwd _ tL hpe) (hhead x hx2))
theorem dropConsumed_cons_of_le (fwd : Bool) (cutoff : ℚ)
    (e1 e2 : BoundaryEntry) (rest : List BoundaryEntry)
    (h : evolLE fwd e2.time_step_id.step_time cutoff = true) :
    dropConsumed fwd cutoff (e1 :: e2 :: rest)
      = dropConsumed fwd cutoff (e2 :: rest) := by
  show (if evolLE fwd e2.time_step_id.step_time cutoff = true then
      dropConsumed fwd cutoff (e2 :: rest) else e1 :: e2 :: rest)
    = dropConsumed fwd cutoff (e2 :: rest)
  rw [if_pos h]

theorem dropConsumed_cons_of_gt (fwd : Bool) (cutoff : ℚ)
    (e1 e2 : BoundaryEntry) (rest : List BoundaryEntry)
    (h : evolLE fwd e2.time_step_id.step_time cutoff = false) :
    dropConsumed fwd cutoff (e1 :: e2 :: rest) = e1 :: e2 :: rest := by
  show (if evolLE fwd e2.time_step_id.step_time cutoff = true then
      dropConsumed fwd cutoff (e2 :: rest) else e1 :: e2 :: rest)
    = e1 :: e2 :: rest
  rw [if_neg (by simp [h])]

theorem oldestNeeded_split (fwd : Bool) (k : ℕ) (tL : ℚ)
    (F A : List BoundaryEntry)
    (hF : ∀ e ∈ F, evolLE fwd e.time_step_id.step_time tL = true)
    (hA : ∀ e ∈ A, evolLE fwd e.time_step_id.step_time tL = false) :
    oldestNeeded fwd k tL (F ++ A)
      = match (takeLast k F).head? with
        | some e => e.time_step_id.step_time
        | none => tL := by
  unfold oldestNeeded
  have hfil : (F ++ A).filter
      (fun e => evolLE fwd e.time_step_id.step_time tL) = F := by
    rw [List.filter_append, List.filter_eq_self.mpr hF,
      List.filter_eq_nil_iff.mpr (fun a ha => by simp [hA a ha]),
      List.append_nil]
  rw [hfil]

theorem dropConsumed_no_dead (fwd : Bool) (cutoff : ℚ) :
    ∀ (es : List BoundaryEntry), entriesSorted fwd es →
      ∀ u ∈ (bhTimes (dropConsumed fwd cutoff es)).tail,
        evolLT fwd u cutoff = false := by
  intro es
  induction es with
  | nil => intro _ u hu; cases hu
  | cons e1 tl ih =>
    cases tl with
    | nil => intro _ u hu; cases hu
    | cons e2 rest =>
      intro hs u hu
      have hhead := (List.pairwise_cons.mp
        ((List.pairwise_cons.mp hs).2)).1
      cases h2 : evolLE fwd e2.time_step_id.step_time cutoff with
      | true =>
        rw [dropConsumed_cons_of_le fwd cutoff e1 e2 rest h2] at hu
        exact ih (List.pairwise_cons.mp hs).2 u hu
      | false =>
        rw [dropConsumed_cons_of_gt fwd cutoff e1 e2 rest h2] at hu
        have hu2 : u ∈ bhTimes (e2 :: rest) := hu
        unfold bhTimes at hu2
        rcases List.mem_cons.mp hu2 with h3 | h3
        · rw [h3]
          exact evolLT_asymm fwd cutoff _ (evolLT_of_not_le fwd _ cutoff h2)
        · obtain ⟨x, hx, rfl⟩ := List.mem_map.mp h3
          exact evolLT_asymm fwd cutoff _
            (evolLT_trans fwd cutoff _ _
              (evolLT_of_not_le fwd _ cutoff h2) (hhead x hx))

theorem dropConsumed_split (fwd : Bool) (k : ℕ) (tL : ℚ) (hk : 1 ≤ k) :
    ∀ (F A : List BoundaryEntry), entriesSorted fwd (F ++ A) →
      (∀ e ∈ F, evolLE fwd e.time_step_id.step_time tL = true) →
      (∀ e ∈ A, evolLE fwd e.time_step_id.step_time tL = false) →
      dropConsumed fwd (oldestNeeded fwd k tL (F ++ A)) (F ++ A)
        = F.drop (F.length - k) ++ A := by
  intro F
  induction F with
  | nil =>
    intro A hs hF hA
    rw [oldestNeeded_split fwd k tL [] A hF hA]
    have htl : takeLast k ([] : List BoundaryEntry) = [] := by
      unfold takeLast
      exact List.drop_nil
    rw [htl]
    rw [show ([] : List BoundaryEntry).drop
        (List.length ([] : List BoundaryEntry) - k) = [] from List.drop_nil,
      List.nil_append]
    show dropConsumed fwd tL A = A
    cases A with
    | nil => rfl
    | cons a1 A1 =>
      cases A1 with
      | nil => rfl
      | cons a2 A2 =>
        exact dropConsumed_cons_of_gt fwd tL a1 a2 A2 (hA a2 (by simp))
  | cons f1 F1 ih =>
    intro A hs hF hA
    rw [oldestNeeded_split fwd k tL (f1 :: F1) A hF hA]
    cases F1 with
    | nil =>
      have htk : takeLast k [f1] = [f1] := takeLast_all k [f1] (by simp; omega)
      rw [htk]
      have hd : List.length [f1] - k = 0 := by simp; omega
      rw [hd, List.drop_zero]
      cases A with
      | nil => rfl
      | cons a1 A1 =>
        show dropConsumed fwd f1.time_step_id.step_time (f1 :: a1 :: A1)
          = f1 :: a1 :: A1
        apply dropConsumed_cons_of_gt
        cases hcon : evolLE fwd a1.time_step_id.step_time
            f1.time_step_id.step_time with
        | false => rfl
        | true =>
          have h5 := evolLE_trans fwd _ _ _ hcon (hF f1 (by simp))
          rw [hA a1 (by simp)] at h5
          cases h5
    | cons f2 F2 =>
      rcases Nat.lt_or_ge (f2 :: F2).length k with hlen | hlen
      · have htk : takeLast k (f1 :: f2 :: F2) = f1 :: f2 :: F2 :=
          takeLast_all k _ (by simp at hlen ⊢; omega)
        rw [htk]
        have hd : (f1 :: f2 :: F2).length - k = 0 := by
          simp at hlen ⊢
          omega
        rw [hd, List.drop_zero]
        have h12 := (List.pairwise_cons.mp hs).1 f2 (by simp)
        exact dropConsumed_cons_of_gt fwd _ f1 f2 (F2 ++ A)
          (evolLE_eq_false_of_lt fwd _ _ h12)
      · have htk : takeLast k (f1 :: f2 :: F2) = takeLast k (f2 :: F2) :=
          takeLast_cons_of_le k f1 _ hlen
        rw [htk]
        have hne2 : takeLast k (f2 :: F2) ≠ [] := by
          intro hcon
          have hlc := congrArg List.length hcon
          rw [length_takeLast_eq] at hlc
          simp at hlc
          omega
        obtain ⟨h0, hh0⟩ : ∃ h0, (takeLast k (f2 :: F2)).head? = some h0 := by
          cases hh : (takeLast k (f2 :: F2)).head? with
          | none => exact absurd (List.head?_eq_none_iff.mp hh) hne2
          | some h0 => exact ⟨h0, rfl⟩
        rw [hh0]
        have hmem0 : h0 ∈ f2 :: F2 :=
          takeLast_subset k _ h0 (List.mem_of_mem_head? hh0)
        have hf2le : evolLE fwd f2.time_step_id.step_time
            h0.time_step_id.step_time = true := by
          rcases List.mem_cons.mp hmem0 with h4 | h4
          · rw [h4]; exact evolLE_refl _ _
          · exact evolLE_of_evolLT _ _ _
              ((List.pairwise_cons.mp (List.Pairwise.sublist
                (List.sublist_append_left (f2 :: F2) A)
                ((List.pairwise_cons.mp hs).2))).1 h0 h4)
        rw [show (f1 :: f2 :: F2) ++ A = f1 :: f2 :: (F2 ++ A) from rfl,
          dropConsumed_cons_of_le fwd _ f1 f2 (F2 ++ A) hf2le]
        have hrec := ih A (List.pairwise_cons.mp hs).2
          (fun e he => hF e (List.mem_cons_of_mem f1 he)) hA
        rw [oldestNeeded_split fwd k tL (f2 :: F2) A
          (fun e he => hF e (List.mem_cons_of_mem f1 he)) hA, hh0] at hrec
        rw [show (f2 :: F2) ++ A = f2 :: (F2 ++ A) from rfl] at hrec
        rw [hrec]
        have harith : (f1 :: f2 :: F2).length - k
            = ((f2 :: F2).length - k) + 1 := by
          simp at hlen ⊢
          omega
        rw [harith, List.drop_succ_cons]
/-- Direction of a boundary history, read from its most recent local
entry's step id. -/
def bhDir (bh : BoundaryHistory) (h : bh.localSide ≠ []) : Bool :=
  (bh.localSide.getLast h).time_step_id.time_runs_forward

/-- Window position of a boundary history: the most recent local step time,
where the next coupling window starts. -/
def bhWindowStart (bh : BoundaryHistory) (h : bh.localSide ≠ []) : ℚ :=
  (bh.localSide.getLast h).time_step_id.step_time

theorem clean_boundary_history_eq (s : AdamsBashforth)
    (bh : BoundaryHistory) (hne : bh.localSide ≠ []) :
    s.clean_boundary_history bh
      = ⟨dropConsumed (bhDir bh hne)
           (oldestNeeded (bhDir bh hne) s.order (bhWindowStart bh hne)
             bh.localSide) bh.localSide,
         dropConsumed (bhDir bh hne)
           (oldestNeeded (bhDir bh hne) s.order (bhWindowStart bh hne)
             bh.remoteSide) bh.remoteSide⟩ := by
  unfold AdamsBashforth.clean_boundary_history
  rw [List.getLast?_eq_getLast _ hne]
  rfl

theorem clean_local_shape (s : AdamsBashforth) (bh : BoundaryHistory)
    (hk : 1 ≤ s.order) (hne : bh.localSide ≠ [])
    (hsl : entriesSorted (bhDir bh hne) bh.localSide) :
    dropConsumed (bhDir bh hne)
        (oldestNeeded (bhDir bh hne) s.order (bhWindowStart bh hne)
          bh.localSide) bh.localSide
      = takeLast s.order bh.localSide := by
  have h1 := dropConsumed_split (bhDir bh hne) s.order (bhWindowStart bh hne)
    hk bh.localSide [] (by rw [List.append_nil]; exact hsl)
    (entriesSorted_le_getLast _ _ hne hsl) (by simp)
  simp only [List.append_nil] at h1
  rw [h1]
  rfl

theorem bhTimes_append (l1 l2 : List BoundaryEntry) :
    bhTimes (l1 ++ l2) = bhTimes l1 ++ bhTimes l2 := by
  unfold bhTimes
  rw [List.map_append]

theorem bhTimes_takeLast (k : ℕ) (es : List BoundaryEntry) :
    bhTimes (takeLast k es) = takeLast k (bhTimes es) := by
  unfold bhTimes
  rw [takeLast_map]

theorem bhValues_takeLast (k : ℕ) (es : List BoundaryEntry) :
    bhValues (takeLast k es) = takeLast k (bhValues es) := by
  unfold bhValues
  rw [takeLast_map]

theorem filter_window_drop (fwd : Bool) (tS tE : ℚ)
    (es : List BoundaryEntry) (d : ℕ)
    (hd : ∀ e ∈ es.take d, evolLE fwd e.time_step_id.step_time tS = true) :
    (bhTimes (es.drop d)).filter
        (fun u => evolLT fwd tS u && evolLT fwd u tE)
      = (bhTimes es).filter (fun u => evolLT fwd tS u && evolLT fwd u tE)
      := by
  unfold bhTimes
  rw [List.map_drop]
  have hnil : List.filter (fun u => evolLT fwd tS u && evolLT fwd u tE)
      (List.take d (es.map (fun e => e.time_step_id.step_time))) = [] := by
    apply List.filter_eq_nil_iff.mpr
    intro u hu
    rw [← List.map_take] at hu
    obtain ⟨e, he, rfl⟩ := List.mem_map.mp hu
    rw [evolLT_eq_false_of_le fwd _ tS (hd e he)]
    simp
  conv_rhs => rw [← List.take_append_drop d
    (es.map (fun e => e.time_step_id.step_time))]
  rw [List.filter_append, hnil, List.nil_append]

theorem takeLast_map_dropPrefix {β : Type} (g : BoundaryEntry → β)
    (k j : ℕ) (F X : List BoundaryEntry) (hj : j ≤ F.length)
    (hjk : j = 0 ∨ j + k ≤ F.length) :
    takeLast k ((F.drop j ++ X).map g) = takeLast k ((F ++ X).map g) := by
  rcases hjk with h | h
  · rw [h, List.drop_zero]
  · rw [List.map_append, List.map_drop,
      ← List.drop_append_of_le_length (by rw [List.length_map]; exact hj),
      ← List.map_append]
    exact takeLast_drop k j _ (by
      rw [List.length_map, List.length_append]
      omega)

theorem takeLast_bhTimes_dropPrefix (k j : ℕ) (F X : List BoundaryEntry)
    (hj : j ≤ F.length) (hjk : j = 0 ∨ j + k ≤ F.length) :
    takeLast k (bhTimes (F.drop j ++ X)) = takeLast k (bhTimes (F ++ X)) := by
  unfold bhTimes
  exact takeLast_map_dropPrefix _ k j F X hj hjk

theorem takeLast_bhValues_dropPrefix (k j : ℕ) (F X : List BoundaryEntry)
    (hj : j ≤ F.length) (hjk : j = 0 ∨ j + k ≤ F.length) :
    takeLast k (bhValues (F.drop j ++ X))
      = takeLast k (bhValues (F ++ X)) := by
  unfold bhValues
  exact takeLast_map_dropPrefix _ k j F X hj hjk
theorem add_boundary_delta_clean (s : AdamsBashforth) (bh : BoundaryHistory)
    (y dt : ℚ) (c : ℚ → ℚ → ℚ) (hk : 1 ≤ s.order)
    (hne : bh.localSide ≠ [])
    (hsl : entriesSorted (bhDir bh hne) bh.localSide)
    (hsr : entriesSorted (bhDir bh hne) bh.remoteSide)
    (hdt : decide (0 < dt) = bhDir bh hne) :
    s.add_boundary_delta y (s.clean_boundary_history bh) dt c
      = s.add_boundary_delta y bh dt c := by
  obtain ⟨F, A, hFA, hF, hA⟩ := sorted_split_le (bhDir bh hne)
    (bhWindowStart bh hne) bh.remoteSide hsr
  have hrem : dropConsumed (bhDir bh hne)
      (oldestNeeded (bhDir bh hne) s.order (bhWindowStart bh hne)
        bh.remoteSide) bh.remoteSide
      = F.drop (F.length - s.order) ++ A := by
    rw [hFA]
    exact dropConsumed_split _ _ _ hk F A (by rw [← hFA]; exact hsr) hF hA
  have hloc := clean_local_shape s bh hk hne hsl
  rw [clean_boundary_history_eq s bh hne, hloc, hrem]
  have hlast : bh.localSide.getLast? = some (bh.localSide.getLast hne) :=
    List.getLast?_eq_getLast _ hne
  have hglc : (takeLast s.order bh.localSide).getLast?
      = some (bh.localSide.getLast hne) := by
    rw [takeLast_getLast? _ _ hk hne, hlast]
  rw [add_boundary_delta_some s y
      ⟨takeLast s.order bh.localSide, F.drop (F.length - s.order) ++ A⟩ dt c
      (bh.localSide.getLast hne) hglc,
    add_boundary_delta_some s y bh dt c (bh.localSide.getLast hne) hlast,
    hdt,
    show (bh.localSide.getLast hne).time_step_id.step_time
      = bhWindowStart bh hne from rfl]
  have hjle : F.length - s.order ≤ F.length := by omega
  have hjor : F.length - s.order = 0
      ∨ (F.length - s.order) + s.order ≤ F.length := by omega
  have hlocmem : ∀ e ∈ bh.localSide,
      evolLE (bhDir bh hne) e.time_step_id.step_time
        (bhWindowStart bh hne) = true :=
    entriesSorted_le_getLast _ _ hne hsl
  have hlf : (bhTimes (takeLast s.order bh.localSide)).filter
        (fun u => evolLT (bhDir bh hne) (bhWindowStart bh hne) u
          && evolLT (bhDir bh hne) u (bhWindowStart bh hne + dt))
      = (bhTimes bh.localSide).filter
        (fun u => evolLT (bhDir bh hne) (bhWindowStart bh hne) u
          && evolLT (bhDir bh hne) u (bhWindowStart bh hne + dt)) :=
    filter_window_drop _ _ _ bh.localSide _
      (fun e he => hlocmem e (List.mem_of_mem_take he))
  have hrf : (bhTimes (F.drop (F.length - s.order) ++ A)).filter
        (fun u => evolLT (bhDir bh hne) (bhWindowStart bh hne) u
          && evolLT (bhDir bh hne) u (bhWindowStart bh hne + dt))
      = (bhTimes bh.remoteSide).filter
        (fun u => evolLT (bhDir bh hne) (bhWindowStart bh hne) u
          && evolLT (bhDir bh hne) u (bhWindowStart bh hne + dt)) := by
    rw [hFA, bhTimes_append, bhTimes_append, List.filter_append,
      List.filter_append,
      filter_window_drop _ _ _ F _
        (fun e he => hF e (List.mem_of_mem_take he))]
  have hbnds : boundaryBnds
        ⟨takeLast s.order bh.localSide, F.drop (F.length - s.order) ++ A⟩
        (bhDir bh hne) (bhWindowStart bh hne) (bhWindowStart bh hne + dt)
      = boundaryBnds bh (bhDir bh hne) (bhWindowStart bh hne)
        (bhWindowStart bh hne + dt) := by
    rw [boundaryBnds_shape, boundaryBnds_shape]
    have hfil : (bhTimes ((⟨takeLast s.order bh.localSide,
          F.drop (F.length - s.order) ++ A⟩ : BoundaryHistory).localSide
          ++ (⟨takeLast s.order bh.localSide,
          F.drop (F.length - s.order) ++ A⟩ :
            BoundaryHistory).remoteSide)).filter
          (fun u => evolLT (bhDir bh hne) (bhWindowStart bh hne) u
            && evolLT (bhDir bh hne) u (bhWindowStart bh hne + dt))
        = (bhTimes (bh.localSide ++ bh.remoteSide)).filter
          (fun u => evolLT (bhDir bh hne) (bhWindowStart bh hne) u
            && evolLT (bhDir bh hne) u (bhWindowStart bh hne + dt)) := by
      show (bhTimes (takeLast s.order bh.localSide
          ++ (F.drop (F.length - s.order) ++ A))).filter _ = _
      rw [bhTimes_append, List.filter_append, hlf, hrf,
        ← List.filter_append, ← bhTimes_append]
    rw [hfil]
  rw [hbnds]
  congr 1
  apply congrArg List.sum
  apply List.map_congr_left
  intro ab hab
  have hmem1 : ab.1 ∈ boundaryBnds bh (bhDir bh hne) (bhWindowStart bh hne)
      (bhWindowStart bh hne + dt) :=
    mem_subIntervals_fst _ ab hab
  have ha1 : evolLE (bhDir bh hne) (bhWindowStart bh hne) ab.1 = true := by
    have h := mem_boundaryBnds_le bh dt (bhWindowStart bh hne) ab.1
      (by rw [hdt]; exact hmem1)
    rw [hdt] at h
    exact h
  have hravc : remoteAvail
      ⟨takeLast s.order bh.localSide, F.drop (F.length - s.order) ++ A⟩
      (bhDir bh hne) ab.1
      = F.drop (F.length - s.order) ++ A.filter
          (fun e => evolLE (bhDir bh hne) e.time_step_id.step_time ab.1) := by
    show (F.drop (F.length - s.order) ++ A).filter _ = _
    rw [List.filter_append, List.filter_eq_self.mpr (fun e he =>
      evolLE_trans _ _ _ _ (hF e (List.drop_subset _ F he)) ha1)]
  have hravo : remoteAvail bh (bhDir bh hne) ab.1
      = F ++ A.filter
          (fun e => evolLE (bhDir bh hne) e.time_step_id.step_time ab.1) := by
    show bh.remoteSide.filter _ = _
    rw [hFA, List.filter_append, List.filter_eq_self.mpr (fun e he =>
      evolLE_trans _ _ _ _ (hF e he) ha1)]
  rw [hravc, hravo,
    takeLast_bhTimes_dropPrefix s.order (F.length - s.order) F _ hjle hjor,
    takeLast_bhValues_dropPrefix s.order (F.length - s.order) F _ hjle hjor,
    bhTimes_takeLast, bhValues_takeLast, takeLast_takeLast, takeLast_takeLast]
/-- Claim C6: with each side's entries in increasing evolution order (the
data-model insertion invariant), after a `clean_boundary_history` call
neither side retains an entry whose validity interval ends before that
side's oldest time still needed by a future coupling computation; the
retained local side stays bounded by the order in use and the retained
remote side by the order plus the entries already posted ahead of the
coupling window — bounds independent of how many steps have elapsed — and
the cleaned history still produces exactly the boundary delta of the
uncleaned one, for every state, coupling function and step in the
history's direction. -/
theorem claim_C6_clean_boundary_history (s : AdamsBashforth)
    (bh : BoundaryHistory) (hk : 1 ≤ s.order) (hne : bh.localSide ≠ [])
    (hsl : entriesSorted (bhDir bh hne) bh.localSide)
    (hsr : entriesSorted (bhDir bh hne) bh.remoteSide) :
    (∀ u ∈ (bhTimes (s.clean_boundary_history bh).localSide).tail,
       evolLT (bhDir bh hne) u
         (oldestNeeded (bhDir bh hne) s.order (bhWindowStart bh hne)
           bh.localSide) = false) ∧
    (∀ u ∈ (bhTimes (s.clean_boundary_history bh).remoteSide).tail,
       evolLT (bhDir bh hne) u
         (oldestNeeded (bhDir bh hne) s.order (bhWindowStart bh hne)
           bh.remoteSide) = false) ∧
    ((s.clean_boundary_history bh).localSide.length ≤ s.order ∧
     (s.clean_boundary_history bh).remoteSide.length
       ≤ s.order + (bh.remoteSide.filter (fun e =>
           !(evolLE (bhDir bh hne) e.time_step_id.step_time
               (bhWindowStart bh hne)))).length) ∧
    (∀ (y dt : ℚ) (c : ℚ → ℚ → ℚ), decide (0 < dt) = bhDir bh hne →
       s.add_boundary_delta y (s.clean_boundary_history bh) dt c
         = s.add_boundary_delta y bh dt c) := by
  refine ⟨?_, ?_, ⟨?_, ?_⟩, ?_⟩
  · rw [clean_boundary_history_eq s bh hne]
    exact fun u hu => dropConsumed_no_dead _ _ _ hsl u hu
  · rw [clean_boundary_history_eq s bh hne]
    exact fun u hu => dropConsumed_no_dead _ _ _ hsr u hu
  · rw [clean_boundary_history_eq s bh hne]
    show (dropConsumed (bhDir bh hne)
      (oldestNeeded (bhDir bh hne) s.order (bhWindowStart bh hne)
        bh.localSide) bh.localSide).length ≤ s.order
    rw [clean_local_shape s bh hk hne hsl]
    exact length_takeLast_le _ _
  · obtain ⟨F, A, hFA, hF, hA⟩ := sorted_split_le (bhDir bh hne)
      (bhWindowStart bh hne) bh.remoteSide hsr
    have hrem : dropConsumed (bhDir bh hne)
        (oldestNeeded (bhDir bh hne) s.order (bhWindowStart bh hne)
          bh.remoteSide) bh.remoteSide
        = F.drop (F.length - s.order) ++ A := by
      rw [hFA]
      exact dropConsumed_split _ _ _ hk F A (by rw [← hFA]; exact hsr) hF hA
    have hAfil : bh.remoteSide.filter (fun e =>
        !(evolLE (bhDir bh hne) e.time_step_id.step_time
            (bhWindowStart bh hne))) = A := by
      rw [hFA, List.filter_append,
        List.filter_eq_nil_iff.mpr (fun e hemem => by
          rw [hF e hemem]
          simp),
        List.filter_eq_self.mpr (fun e hemem => by
          rw [hA e hemem]
          rfl),
        List.nil_append]
    rw [clean_boundary_history_eq s bh hne]
    show (dropConsumed (bhDir bh hne)
      (oldestNeeded (bhDir bh hne) s.order (bhWindowStart bh hne)
        bh.remoteSide) bh.remoteSide).length ≤ _
    rw [hrem, hAfil, List.length_append, List.length_drop]
    omega
  · intro y dt c hdt
    exact add_boundary_delta_clean s bh y dt c hk hne hsl hsr hdt

/-- Concrete boundary history for the C6 witness: two sorted local entries
ending at time 0 and three sorted remote entries, one of them already
posted ahead of the coupling window position. -/
def bhC6 : BoundaryHistory :=
  ⟨[⟨⟨true, 0, 0, -1⟩, 2, 5⟩, ⟨⟨true, 0, 0, 0⟩, 2, 7⟩],
   [⟨⟨true, 0, 0, -3/4⟩, 2, 11⟩, ⟨⟨true, 0, 0, -1/4⟩, 2, 13⟩,
    ⟨⟨true, 0, 0, 1/4⟩, 2, 17⟩]⟩

/-- Claim C6 witness: the order-2 stepper on a concrete sorted boundary
history whose remote side extends past the window position — cleaning
retains no dead entry, respects both size bounds, and preserves the next
boundary delta. -/
theorem claim_C6_clean_boundary_history_witness :
    (1 ≤ (AdamsBashforth.mk 2).order ∧ bhC6.localSide ≠ []) ∧
    ((∀ u ∈ (bhTimes ((AdamsBashforth.mk 2).clean_boundary_history
        bhC6).localSide).tail,
       evolLT (bhDir bhC6 (by decide)) u
         (oldestNeeded (bhDir bhC6 (by decide)) (AdamsBashforth.mk 2).order
           (bhWindowStart bhC6 (by decide)) bhC6.localSide) = false) ∧
     (∀ u ∈ (bhTimes ((AdamsBashforth.mk 2).clean_boundary_history
        bhC6).remoteSide).tail,
       evolLT (bhDir bhC6 (by decide)) u
         (oldestNeeded (bhDir bhC6 (by decide)) (AdamsBashforth.mk 2).order
           (bhWindowStart bhC6 (by decide)) bhC6.remoteSide) = false) ∧
     (((AdamsBashforth.mk 2).clean_boundary_history bhC6).localSide.length
         ≤ (AdamsBashforth.mk 2).order ∧
      ((AdamsBashforth.mk 2).clean_boundary_history bhC6).remoteSide.length
         ≤ (AdamsBashforth.mk 2).order + (bhC6.remoteSide.filter (fun e =>
             !(evolLE (bhDir bhC6 (by decide)) e.time_step_id.step_time
                 (bhWindowStart bhC6 (by decide))))).length) ∧
     (∀ (y dt : ℚ) (c : ℚ → ℚ → ℚ),
        decide (0 < dt) = bhDir bhC6 (by decide) →
        (AdamsBashforth.mk 2).add_boundary_delta y
            ((AdamsBashforth.mk 2).clean_boundary_history bhC6) dt c
          = (AdamsBashforth.mk 2).add_boundary_delta y bhC6 dt c)) := by
  have hne : bhC6.localSide ≠ [] := by decide
  have hsl : entriesSorted (bhDir bhC6 hne) bhC6.localSide := by
    show entriesSorted true bhC6.localSide
    decide
  have hsr : entriesSorted (bhDir bhC6 hne) bhC6.remoteSide := by
    show entriesSorted true bhC6.remoteSide
    decide
  exact ⟨⟨by decide, hne⟩,
    claim_C6_clean_boundary_history (AdamsBashforth.mk 2) bhC6
      (by decide) hne hsl hsr⟩
